import Mathlib

/-!
Verification of the PaulGrahamEssays reading-app client scripts.

The development shallowly embeds the four client modules that the claims
concern:

* the footnote interaction engine (parsing note definitions, wrapping
  linked-style and plain-text citations, and the single-popover lifecycle);
* the reading-history store (scroll tracking and the sticky read flag);
* the reader-settings store (defaults, legacy-theme migration, font-size
  clamping);
* the annotation store (JSON and text export).

DOM trees are modelled by the nested inductive type DNode; DOM-mutating
passes become pure tree transformations.  The JS regular-expression scan
for bracketed citations is embedded as an equivalent character-level
scanner.  Browser storage reads are modelled by a three-way input
(missing / unparsable / parsed value), mirroring the try/catch structure
of each load operation.
-/

set_option maxHeartbeats 1000000
set_option maxRecDepth 8192

namespace PGE

/-! ## JavaScript string primitives -/

/-- Whitespace predicate modelling the character class of the JS regexes
and of String.prototype.trim. -/
def jsWs (c : Char) : Bool := c.isWhitespace

/-- Both-ends trim on character lists, modelling String.prototype.trim:
drop whitespace from the front, then from the back. -/
def jsTrimL (l : List Char) : List Char :=
  (((l.dropWhile jsWs).reverse.dropWhile jsWs)).reverse

/-- Model of String.prototype.trim. -/
def jsTrim (s : String) : String := ⟨jsTrimL s.data⟩

/-! ## Footnote definition map

The source stores definitions in a JS Map from citation number (string)
to definition body.  Map.set overwrites an existing key in place and
appends a fresh key at the end, which the association-list operation
mapSet reproduces. -/

/-- The Footnote Definition Map, in insertion order. -/
abbrev FnMap := List (String × String)

/-- Membership test modelling Map.prototype.has. -/
def fnHas (m : FnMap) (k : String) : Bool :=
  m.any (fun p => p.1 == k)

/-- Model of Map.prototype.set: overwrite in place or append. -/
def mapSet (m : FnMap) (k v : String) : FnMap :=
  if m.any (fun p => p.1 == k) then
    m.map (fun p => if p.1 == k then (k, v) else p)
  else m ++ [(k, v)]

/-- Model of the regex test /^Notes/ on a heading's text content. -/
def startsNotes (s : String) : Bool :=
  match s.data with
  | 'N' :: 'o' :: 't' :: 'e' :: 's' :: _ => true
  | _ => false

/-- A notes-candidate section, as parseFootnotes observes it: the text
content of its first strong child (none when there is no strong child)
and its serialized innerHTML. -/
structure NotesSection where
  strongText : Option String
  innerHTML : String

/-! Markup stripping.  The source assigns each raw segment to a detached
div's innerHTML and reads back textContent, which drops all tags.  We
model that round trip directly on the serialized form: characters between
an unescaped < and the following > are removed. -/

mutual

/-- Strip markup tags from serialized HTML (model of the
innerHTML-assignment / textContent read-back in parseFootnotes). -/
def stripTags : List Char → List Char
  | [] => []
  | c :: rest => if c = '<' then stripTagsIn rest else c :: stripTags rest

/-- Inside a tag: skip to the closing angle bracket. -/
def stripTagsIn : List Char → List Char
  | [] => []
  | c :: rest => if c = '>' then stripTags rest else stripTagsIn rest

end

/-! Splitting on bracketed-integer markers.

parseFootnotes runs html.split(/\[(\d+)\]/), which yields the segment
before the first marker and then alternating captured numbers and
following segments.  splitN embeds that scan: it walks the characters,
and at each open bracket splitNMark tries to read one-or-more digits
followed by a closing bracket; on failure the scanned characters are
ordinary text and scanning resumes exactly where the regex engine
would resume. -/

mutual

/-- Split a character list on bracketed-integer markers; returns the
segment before the first marker and the (number, following segment)
pairs, exactly as the split-with-capture loop in parseFootnotes pairs
them (parts at odd and even indices). -/
def splitN : List Char → List Char × List (String × List Char)
  | [] => ([], [])
  | c :: rest =>
    if c = '[' then splitNMark [] rest
    else
      let r := splitN rest
      (c :: r.1, r.2)

/-- State after an open bracket and the (reversed) digits ds read so
far. -/
def splitNMark (ds : List Char) : List Char → List Char × List (String × List Char)
  | [] => ('[' :: ds.reverse, [])
  | c :: rest =>
    if c.isDigit then splitNMark (c :: ds) rest
    else if c = ']' then
      if ds.isEmpty then
        let r := splitN rest
        ('[' :: ']' :: r.1, r.2)
      else
        let r := splitN rest
        ([], (⟨ds.reverse⟩, r.1) :: r.2)
    else if c = '[' then
      let r := splitNMark [] rest
      ('[' :: ds.reverse ++ r.1, r.2)
    else
      let r := splitN rest
      ('[' :: ds.reverse ++ c :: r.1, r.2)

end

/-- Model of parseFootnotes: for each section whose strong heading text
starts with "Notes", split its innerHTML on bracketed-integer markers,
strip each following segment to plain text, trim it, and record it under
the captured number, discarding empty definitions. -/
def parseFootnotes (sections : List NotesSection) : FnMap :=
  sections.foldl
    (fun map sec =>
      match sec.strongText with
      | some t =>
        if startsNotes t then
          (splitN sec.innerHTML.data).2.foldl
            (fun m p =>
              let text := jsTrim ⟨stripTags p.2⟩
              if text ≠ "" then mapSet m p.1 text else m)
            map
        else map
      | none => map)
    []

/-! ## The DOM model -/

/-- A rendered DOM node: a text node or an element with a tag, an
attribute list and children. -/
inductive DNode where
  | text (s : String)
  | elem (tag : String) (attrs : List (String × String)) (children : List DNode)

/-- Attribute lookup (model of getAttribute / dataset access). -/
def getAttr (attrs : List (String × String)) (name : String) : Option String :=
  (attrs.find? (fun p => p.1 == name)).map (fun p => p.2)

/-- Attribute presence (model of the [data-fn] selector). -/
def hasAttr (attrs : List (String × String)) (name : String) : Bool :=
  attrs.any (fun p => p.1 == name)

/-- Split a class attribute value into class tokens (on spaces). -/
def classTokens : List Char → List String :=
  go []
where
  go (acc : List Char) : List Char → List String
    | [] => if acc.isEmpty then [] else [⟨acc.reverse⟩]
    | c :: rest =>
      if c = ' ' then
        if acc.isEmpty then go [] rest else ⟨acc.reverse⟩ :: go [] rest
      else go (c :: acc) rest

/-- Does an element match the selector div.text-xs? -/
def isNotesDiv (tag : String) (attrs : List (String × String)) : Bool :=
  tag == "div" &&
    (match getAttr attrs "class" with
     | some cls => (classTokens cls.data).contains "text-xs"
     | none => false)

/-- The tree-walker exclusion of wrapPlainTextNotes: a text node is
rejected when an ancestor matches div.text-xs (the notes region) or
[data-fn] (an already-created control). -/
def exclElem (tag : String) (attrs : List (String × String)) : Bool :=
  isNotesDiv tag attrs || hasAttr attrs "data-fn"

mutual

/-- The text content of a node (concatenation of descendant text). -/
def textContentN : DNode → String
  | .text s => s
  | .elem _ _ cs => textContentL cs

/-- The text content of a node list. -/
def textContentL : List DNode → String
  | [] => ""
  | n :: l => textContentN n ++ textContentL l

end

mutual

/-- Number of interactive controls carrying citation number tgt in a
node (elements whose data-fn attribute equals tgt). -/
def controlCountN (tgt : String) : DNode → Nat
  | .text _ => 0
  | .elem _ a cs =>
    (if getAttr a "data-fn" = some tgt then 1 else 0) + controlCountL tgt cs

/-- Number of interactive controls carrying tgt in a node list. -/
def controlCountL (tgt : String) : List DNode → Nat
  | [] => 0
  | n :: l => controlCountN tgt n + controlCountL tgt l

end

mutual

/-- No element anywhere in the node carries a data-fn attribute. -/
def noControlsN : DNode → Bool
  | .text _ => true
  | .elem _ a cs => !hasAttr a "data-fn" && noControlsL cs

/-- No element anywhere in the list carries a data-fn attribute. -/
def noControlsL : List DNode → Bool
  | [] => true
  | n :: l => noControlsN n && noControlsL l

end

mutual

/-- Every control (element with data-fn) carries the accessible label
encoding its number, that is aria-label equal to "Footnote " followed by
the number. -/
def labeledOKN : DNode → Bool
  | .text _ => true
  | .elem _ a cs =>
    (match getAttr a "data-fn" with
     | some n => getAttr a "aria-label" == some ("Footnote " ++ n)
     | none => true) && labeledOKL cs

/-- Every control in the list carries its accessible label. -/
def labeledOKL : List DNode → Bool
  | [] => true
  | n :: l => labeledOKN n && labeledOKL l

end

/-- The interactive control created for citation number n by both
wrapping passes: a button with data-fn, an aria-label, and the literal
bracketed number as its text. -/
def mkBtn (n : String) : DNode :=
  .elem "button" [("data-fn", n), ("aria-label", "Footnote " ++ n)]
    [.text ("[" ++ n ++ "]")]

/-! ## The plain-text citation scan

wrapPlainTextNotes runs the global regex /\[(\d+)\]/g over each accepted
text node.  The scan is embedded as a tokenizer: lex walks the
characters; at an open bracket lexMark reads digits and a closing
bracket, producing a valid token (number present in the definition map),
an invalid token (number absent), or plain characters on failure, with
scanning resuming where the regex engine would. -/

/-- One token of the citation scan. -/
inductive Tok where
  | plain (c : Char)
  | valid (n : String)
  | invalid (n : String)
deriving DecidableEq

/-- Plain-character tokens for a run of characters. -/
def plains (cs : List Char) : List Tok := cs.map Tok.plain

mutual

/-- The citation scan of wrapPlainTextNotes over one text node's
characters. -/
def lex (fns : FnMap) : List Char → List Tok
  | [] => []
  | c :: rest =>
    if c = '[' then lexMark fns [] rest
    else .plain c :: lex fns rest

/-- State after an open bracket and the (reversed) digits ds read so
far: a closing bracket after at least one digit completes a match,
anything else makes the scanned characters plain text. -/
def lexMark (fns : FnMap) (ds : List Char) : List Char → List Tok
  | [] => plains ('[' :: ds.reverse)
  | c :: rest =>
    if c.isDigit then lexMark fns (c :: ds) rest
    else if c = ']' then
      if ds.isEmpty then .plain '[' :: .plain ']' :: lex fns rest
      else
        (if fnHas fns ⟨ds.reverse⟩ then Tok.valid ⟨ds.reverse⟩
         else Tok.invalid ⟨ds.reverse⟩) :: lex fns rest
    else if c = '[' then plains ('[' :: ds.reverse) ++ lexMark fns [] rest
    else plains ('[' :: ds.reverse) ++ (.plain c :: lex fns rest)

end

/-- Is a token a valid citation match? -/
def isValidTok : Tok → Bool
  | .valid _ => true
  | _ => false

/-- Is a token not a valid citation match (plain text or an unmatched
citation)? -/
def nvTok (t : Tok) : Bool := !isValidTok t

/-- Did the scan find any citation with a definition?  (Mirrors the
lastIndex === 0 test: the node is replaced only in that case.) -/
def hasValid (ts : List Tok) : Bool := ts.any isValidTok

/-- Number of valid citation matches carrying number tgt. -/
def countValid (fns : FnMap) (tgt : String) (s : String) : Nat :=
  (lex fns s.data).count (Tok.valid tgt)

/-- The characters a token stands for in the original text. -/
def untokOne : Tok → List Char
  | .plain c => [c]
  | .valid n => '[' :: n.data ++ [']']
  | .invalid n => '[' :: n.data ++ [']']

/-- The characters a token list stands for. -/
def untokAll : List Tok → List Char
  | [] => []
  | t :: ts => untokOne t ++ untokAll ts

/-- Push characters onto a reversed accumulator. -/
def pushAll : List Char → List Char → List Char
  | [], acc => acc
  | c :: cs, acc => pushAll cs (c :: acc)

/-- Emit the pending text accumulated since the last emitted control;
an empty run emits nothing (the source only creates a text node for a
non-empty slice). -/
def emitText (acc : List Char) : List DNode :=
  if acc.isEmpty then [] else [.text ⟨acc.reverse⟩]

/-- Build the replacement fragment from the scanned tokens: text runs
(including unmatched citations, preserved verbatim) become text nodes,
valid citations become controls. -/
def emitToks (acc : List Char) : List Tok → List DNode
  | [] => emitText acc
  | .plain c :: ts => emitToks (c :: acc) ts
  | .invalid n :: ts => emitToks (pushAll ('[' :: n.data ++ [']']) acc) ts
  | .valid n :: ts => emitText acc ++ mkBtn n :: emitToks [] ts

/-- Process one accepted text node of wrapPlainTextNotes: when no
citation with a definition is found the node is left untouched,
otherwise it is replaced by the fragment. -/
def processText (fns : FnMap) (s : String) : List DNode :=
  let ts := lex fns s.data
  if hasValid ts then emitToks [] ts else [.text s]

mutual

/-- wrapPlainTextNotes on a single node.  ex records whether an ancestor
is the notes region or an existing control (the tree-walker rejection);
element children are processed with the flag extended by the element
itself. -/
def wrapPlainN (fns : FnMap) (ex : Bool) : DNode → List DNode
  | .text s => if ex then [.text s] else processText fns s
  | .elem t a cs => [.elem t a (wrapPlainL fns (ex || exclElem t a) cs)]

/-- wrapPlainTextNotes on a node list. -/
def wrapPlainL (fns : FnMap) (ex : Bool) : List DNode → List DNode
  | [] => []
  | n :: l => wrapPlainN fns ex n ++ wrapPlainL fns ex l

end

mutual

/-- Valid plain-text citations carrying tgt in one node, with the same
exclusions as the pass itself. -/
def plainCountN (fns : FnMap) (ex : Bool) (tgt : String) : DNode → Nat
  | .text s => if ex then 0 else countValid fns tgt s
  | .elem t a cs => plainCountL fns (ex || exclElem t a) tgt cs

/-- Valid plain-text citations carrying tgt in a node list. -/
def plainCountL (fns : FnMap) (ex : Bool) (tgt : String) : List DNode → Nat
  | [] => 0
  | n :: l => plainCountN fns ex tgt n + plainCountL fns ex tgt l

end

/-! ## The linked-citation pass -/

/-- Does an href value match the selector a[href^="#f"]? -/
def hrefFragF (h : String) : Bool :=
  match h.data with
  | '#' :: 'f' :: _ => true
  | _ => false

/-- The trimmed visible text of a link (its citation number). -/
def linkNum : DNode → String
  | .text s => jsTrim s
  | .elem _ _ cs => jsTrim (textContentL cs)

/-- Does wrapLinkedNotes replace this node?  It must be an anchor whose
href starts with "#f", whose trimmed text is a non-empty number present
in the definition map, and no ancestor (ins) may be an existing
control. -/
def qualifies (fns : FnMap) (ins : Bool) : DNode → Bool
  | .text _ => false
  | .elem t a cs =>
    !ins && t == "a" &&
      (match getAttr a "href" with
       | some h => hrefFragF h
       | none => false) &&
      (let num := jsTrim (textContentL cs)
       !(num == "") && fnHas fns num)

/-- Is the head of the remaining sibling list a link that
wrapLinkedNotes will replace?  (Used for the preceding-bracket strip.) -/
def nextQualifies (fns : FnMap) (ins : Bool) : List DNode → Bool
  | [] => false
  | n :: _ => qualifies fns ins n

/-- Strip a leading \s*] from a following text sibling (the regex
replace /^\s*\]/ applied by wrapLinkedNotes). -/
def stripLeadB (s : String) : String :=
  match s.data.dropWhile jsWs with
  | ']' :: rest => ⟨rest⟩
  | _ => s

/-- Strip a trailing [\s* from a preceding text sibling (the regex
replace /\[\s*$/ applied by wrapLinkedNotes). -/
def stripTrailB (s : String) : String :=
  match s.data.reverse.dropWhile jsWs with
  | '[' :: rest => ⟨rest.reverse⟩
  | _ => s

mutual

/-- wrapLinkedNotes on a non-replaced node: descend into element
children, extending the ancestor-control flag. -/
def wrapLinkedN (fns : FnMap) (ins : Bool) : DNode → DNode
  | .text s => .text s
  | .elem t a cs =>
    .elem t a (wrapLinkedL fns (ins || hasAttr a "data-fn") false cs)

/-- wrapLinkedNotes on a sibling list, in document order.  pq records
whether the previous sibling was a replaced link (then a leading \s*] of
a text node is stripped); a text node directly before a link to be
replaced has its trailing [\s* stripped, exactly as the source edits the
previous and next text siblings of each replaced link. -/
def wrapLinkedL (fns : FnMap) (ins pq : Bool) : List DNode → List DNode
  | [] => []
  | .text s :: rest =>
    let s1 := if pq then stripLeadB s else s
    let s2 := if nextQualifies fns ins rest then stripTrailB s1 else s1
    .text s2 :: wrapLinkedL fns ins false rest
  | .elem t a cs :: rest =>
    if qualifies fns ins (.elem t a cs) then
      mkBtn (linkNum (.elem t a cs)) :: wrapLinkedL fns ins true rest
    else
      wrapLinkedN fns ins (.elem t a cs) :: wrapLinkedL fns ins false rest

end

mutual

/-- Linked-style citations carrying tgt that wrapLinkedNotes replaces,
counted on the input tree (no descent into a replaced link). -/
def linkedCountN (fns : FnMap) (ins : Bool) (tgt : String) : DNode → Nat
  | .text _ => 0
  | .elem t a cs =>
    if qualifies fns ins (.elem t a cs) then
      if linkNum (.elem t a cs) == tgt then 1 else 0
    else linkedCountL fns (ins || hasAttr a "data-fn") tgt cs

/-- Linked-style citations carrying tgt in a node list. -/
def linkedCountL (fns : FnMap) (ins : Bool) (tgt : String) : List DNode → Nat
  | [] => 0
  | n :: l => linkedCountN fns ins tgt n + linkedCountL fns ins tgt l

end

/-! ## The popover lifecycle

The module keeps three mutable references: the active tooltip, the
active sheet and the backdrop.  Dismissal clears all three (element
removal is a fire-and-forget visual transition); each show operation
first dismisses everything and then installs its own popover. -/

/-- The tooltip element's modelled state: the note text it displays. -/
structure Tooltip where
  content : String
deriving DecidableEq

/-- The bottom-sheet element's modelled state: the note number shown in
its label and the note text. -/
structure Sheet where
  num : String
  content : String
deriving DecidableEq

/-- The footnote module's mutable state: activeTooltip, activeSheet and
backdrop. -/
structure FnState where
  activeTooltip : Option Tooltip
  activeSheet : Option Sheet
  backdrop : Option Unit
deriving DecidableEq

/-- The initial module state: no popover. -/
def initialFnState : FnState := ⟨none, none, none⟩

/-- Model of dismissAll: remove the tooltip, the sheet and the backdrop
and clear all three references. -/
def dismissAll (_st : FnState) : FnState := ⟨none, none, none⟩

/-- Model of showTooltip: dismiss everything, then create the tooltip. -/
def showTooltip (text : String) (st : FnState) : FnState :=
  let st1 := dismissAll st
  { st1 with activeTooltip := some ⟨text⟩ }

/-- Model of showBottomSheet: dismiss everything, then create the
backdrop and the sheet. -/
def showBottomSheet (num text : String) (st : FnState) : FnState :=
  let st1 := dismissAll st
  { st1 with backdrop := some (), activeSheet := some ⟨num, text⟩ }

/-- Number of popovers (tooltip or sheet) present. -/
def popCount (st : FnState) : Nat :=
  (if st.activeTooltip.isSome then 1 else 0) +
    (if st.activeSheet.isSome then 1 else 0)

/-! ## The reading-history store -/

/-- One persisted reading record.  Fields that a record created by
markAsRead alone does not carry are optional, matching the JS object
shape. -/
structure ReadingRecord where
  read : Bool
  scrollPosition : Option ℚ
  lastReadAt : Option String
  wordCount : Option Int
deriving DecidableEq

/-- The reading-history store: document identifier to record. -/
abbrev RHistory := String → Option ReadingRecord

/-- The empty history (missing or unparsable persisted JSON). -/
def emptyHistory : RHistory := fun _ => none

/-- JS truthiness fallback for booleans (the || operator). -/
def jsOrBool (o : Option Bool) (d : Bool) : Bool :=
  match o with
  | some b => b || d
  | none => d

/-- JS truthiness fallback for strings: the empty string is falsy. -/
def jsOrStr (o : Option String) (d : String) : String :=
  match o with
  | some s => if s = "" then d else s
  | none => d

/-- JS truthiness fallback for integers: zero is falsy. -/
def jsOrInt (o : Option Int) (d : Int) : Int :=
  match o with
  | some n => if n = 0 then d else n
  | none => d

/-- JS truthiness fallback for rationals: zero is falsy. -/
def jsOrRat (o : Option ℚ) (d : ℚ) : ℚ :=
  match o with
  | some q => if q = 0 then d else q
  | none => d

/-- Model of markAsRead: spread the existing record, then set read,
lastReadAt and wordCount. -/
def markAsRead (slug : String) (wordCount : Int) (now : String)
    (h : RHistory) : RHistory :=
  fun s =>
    if s = slug then
      some { read := true,
             scrollPosition := (h slug).bind (fun r => r.scrollPosition),
             lastReadAt := some now,
             wordCount := some wordCount }
    else h s

/-- Model of saveScrollPosition: upsert the offset, preserving an
existing read flag, timestamp and word count via || fallbacks. -/
def saveScrollPosition (slug : String) (position : ℚ) (now : String)
    (h : RHistory) : RHistory :=
  fun s =>
    if s = slug then
      some { scrollPosition := some position,
             read := jsOrBool ((h slug).map (fun r => r.read)) false,
             lastReadAt := some (jsOrStr ((h slug).bind (fun r => r.lastReadAt)) now),
             wordCount := some (jsOrInt ((h slug).bind (fun r => r.wordCount)) 0) }
    else h s

/-- Model of getScrollPosition. -/
def getScrollPosition (slug : String) (h : RHistory) : ℚ :=
  jsOrRat ((h slug).bind (fun r => r.scrollPosition)) 0

/-- Model of isRead. -/
def isRead (slug : String) (h : RHistory) : Bool :=
  jsOrBool ((h slug).map (fun r => r.read)) false

/-- One scroll event as the throttled handler of initScrollTracking
observes it: the scroll offset, the scrollable extent (scrollHeight and
innerHeight), and the timestamp taken when writing. -/
structure ScrollEv where
  y : ℚ
  sh : ℚ
  ih : ℚ
  now : String

/-- The scroll fraction computed by the handler. -/
def scrollFrac (e : ScrollEv) : ℚ := e.y / (e.sh - e.ih)

/-- The body of the scroll handler: save the position on every tick and
mark the document read once the fraction exceeds 0.9. -/
def scrollStep (slug : String) (wordCount : Int) (e : ScrollEv)
    (h : RHistory) : RHistory :=
  let h1 := saveScrollPosition slug e.y e.now h
  if scrollFrac e > 9/10 then markAsRead slug wordCount e.now h1 else h1

/-- A whole sequence of scroll events, oldest first. -/
def runScroll (slug : String) (wordCount : Int) (evs : List ScrollEv)
    (h : RHistory) : RHistory :=
  evs.foldl (fun acc e => scrollStep slug wordCount e acc) h

/-! ## Storage reads

Each load operation reads one localStorage key and parses it inside
try/catch.  The outcome of the read-and-parse is either a missing item,
a string JSON.parse throws on, or a parsed value; the load operations
below case on that outcome exactly as the source's control flow does. -/

/-- The outcome of reading and parsing one persisted key. -/
inductive Stored (α : Type) where
  | missing
  | corrupt
  | val (a : α)

/-- Model of getHistory: missing storage parses the "{}" fallback to the
empty store, a parse failure is caught and yields the empty store. -/
def getHistory (st : Stored RHistory) : RHistory :=
  match st with
  | .missing => emptyHistory
  | .corrupt => emptyHistory
  | .val h => h

/-! ## The reader-settings store -/

/-- The persisted settings object as parsed from storage: any subset of
the fields may be present, and enum-valued fields may hold arbitrary
strings (legacy or unknown values). -/
structure StoredSettings where
  theme : Option String
  fontFamily : Option String
  fontSize : Option Int
  lineHeight : Option Int
  contentWidth : Option String

/-- The settings record returned by loadSettings.  Enum fields are kept
as strings because the source performs no validation beyond the theme
migration table. -/
structure ReaderSettings where
  theme : String
  fontFamily : String
  fontSize : Int
  lineHeight : Int
  contentWidth : String
deriving DecidableEq

/-- The DEFAULTS record. -/
def DEFAULTS : ReaderSettings :=
  { theme := "white", fontFamily := "sans", fontSize := 2,
    lineHeight := 1, contentWidth := "medium" }

/-- The THEME_MIGRATION table: legacy theme names to current ones. -/
def themeMigration (t : String) : Option String :=
  if t = "light" then some "white"
  else if t = "sepia" then some "tan"
  else if t = "dark" then some "black"
  else none

/-- The current theme values. -/
def currentThemes : List String := ["white", "tan", "grey", "black"]

/-- Model of loadSettings: defaults overridden by the present persisted
fields, then the theme rewritten through the migration table when the
table has an entry for it; missing or unparsable storage falls back to
pure defaults. -/
def loadSettings (st : Stored StoredSettings) : ReaderSettings :=
  match st with
  | .missing => DEFAULTS
  | .corrupt => DEFAULTS
  | .val p =>
    let merged : ReaderSettings :=
      { theme := p.theme.getD DEFAULTS.theme,
        fontFamily := p.fontFamily.getD DEFAULTS.fontFamily,
        fontSize := p.fontSize.getD DEFAULTS.fontSize,
        lineHeight := p.lineHeight.getD DEFAULTS.lineHeight,
        contentWidth := p.contentWidth.getD DEFAULTS.contentWidth }
    match themeMigration merged.theme with
    | some t => { merged with theme := t }
    | none => merged

/-- Model of adjustFontSize: load, move the font-size level by delta
clamped into 0..4, persist and return the record. -/
def adjustFontSize (st : Stored StoredSettings) (delta : Int) : ReaderSettings :=
  let s := loadSettings st
  { s with fontSize := max 0 (min 4 (s.fontSize + delta)) }

/-! ## The annotation store -/

/-- A highlight color (the color field of a stored highlight record). -/
inductive HColor where
  | yellow
  | green
  | blue
  | pink
deriving DecidableEq

/-- The color tag string persisted and exported for a color. -/
def colorStr : HColor → String
  | .yellow => "yellow"
  | .green => "green"
  | .blue => "blue"
  | .pink => "pink"

/-- Parse a color tag string. -/
def colorOfStr (s : String) : Option HColor :=
  if s = "yellow" then some .yellow
  else if s = "green" then some .green
  else if s = "blue" then some .blue
  else if s = "pink" then some .pink
  else none

/-- One stored highlight record (the per-document list element of the
annotation store). -/
structure Highlight where
  id : String
  essaySlug : String
  text : String
  color : HColor
  startOffset : Int
  endOffset : Int
  parentSelector : String
  createdAt : String
deriving DecidableEq

/-- The annotation store: document identifier to highlight list, in
insertion order. -/
abbrev AnnStore := List (String × List Highlight)

/-- A JSON value (the image of JSON.stringify / the domain of
JSON.parse restricted to the shapes the store uses). -/
inductive JValue where
  | jnull
  | jstr (s : String)
  | jnum (n : Int)
  | jarr (elems : List JValue)
  | jobj (fields : List (String × JValue))

/-- Object field lookup. -/
def jLookup (fields : List (String × JValue)) (k : String) : Option JValue :=
  (fields.find? (fun p => p.1 == k)).map (fun p => p.2)

/-- The JSON object a highlight serializes to, with keys in the
insertion order addAnnotation creates them. -/
def encodeHighlight (a : Highlight) : JValue :=
  .jobj [("essaySlug", .jstr a.essaySlug),
         ("text", .jstr a.text),
         ("color", .jstr (colorStr a.color)),
         ("startOffset", .jnum a.startOffset),
         ("endOffset", .jnum a.endOffset),
         ("parentSelector", .jstr a.parentSelector),
         ("id", .jstr a.id),
         ("createdAt", .jstr a.createdAt)]

/-- The JSON value the whole store serializes to; exportAnnotations in
json mode returns exactly its (pretty-printed) text. -/
def encodeStore (st : AnnStore) : JValue :=
  .jobj (st.map (fun e => (e.1, .jarr (e.2.map encodeHighlight))))

/-- Read one highlight back from parsed JSON. -/
def decodeHighlight (v : JValue) : Option Highlight := do
  match v with
  | .jobj fs =>
    let .jstr id ← jLookup fs "id" | none
    let .jstr slug ← jLookup fs "essaySlug" | none
    let .jstr text ← jLookup fs "text" | none
    let .jstr colorS ← jLookup fs "color" | none
    let color ← colorOfStr colorS
    let .jnum so ← jLookup fs "startOffset" | none
    let .jnum eo ← jLookup fs "endOffset" | none
    let .jstr ps ← jLookup fs "parentSelector" | none
    let .jstr ca ← jLookup fs "createdAt" | none
    pure { id := id, essaySlug := slug, text := text, color := color,
           startOffset := so, endOffset := eo, parentSelector := ps,
           createdAt := ca }
  | _ => none

/-- Read a highlight list back from parsed JSON, failing if any element
fails. -/
def decodeHighlights : List JValue → Option (List Highlight)
  | [] => some []
  | v :: vs =>
    match decodeHighlight v, decodeHighlights vs with
    | some a, some rest => some (a :: rest)
    | _, _ => none

/-- Read the store's entries back from parsed JSON. -/
def decodeEntries : List (String × JValue) → Option AnnStore
  | [] => some []
  | e :: es =>
    match (match e.2 with
           | .jarr xs => decodeHighlights xs
           | _ => none),
        decodeEntries es with
    | some anns, some rest => some ((e.1, anns) :: rest)
    | _, _ => none

/-- Read a whole store back from parsed JSON. -/
def decodeStore (v : JValue) : Option AnnStore :=
  match v with
  | .jobj fs => decodeEntries fs
  | _ => none

/-- Model of getStore: missing storage parses the "{}" fallback to the
empty store, a parse failure is caught and yields the empty store. -/
def getStore (st : Stored AnnStore) : AnnStore :=
  match st with
  | .missing => []
  | .corrupt => []
  | .val s => s

/-- exportAnnotations in json mode, at the JSON-value level:
JSON.stringify of the whole store. -/
def exportAnnotationsJson (st : AnnStore) : JValue := encodeStore st

/-- The two text-export appends for one highlight: the quoted text line
and the color-tag line with the formatted creation date. -/
def innerStepT (fmtDate : String → String) (acc2 : String) (a : Highlight) : String :=
  (acc2 ++ ("> " ++ a.text ++ "\n")) ++
    ("  [" ++ colorStr a.color ++ "] — " ++ fmtDate a.createdAt ++ "\n\n")

/-- The text-export body for one document: its heading followed by each
of its highlights. -/
def outerStepT (fmtDate : String → String) (acc : String)
    (e : String × List Highlight) : String :=
  e.2.foldl (innerStepT fmtDate) (acc ++ ("## " ++ e.1 ++ "\n\n"))

/-- exportAnnotations in text mode.  fmtDate models the locale date
formatting of the platform (new Date(...).toLocaleDateString()). -/
def exportAnnotationsText (fmtDate : String → String) (st : AnnStore) : String :=
  st.foldl (outerStepT fmtDate) "Paul Graham Essays — My Highlights\n\n"

/-- Containment of one string in another, stated on the character
lists. -/
def strContains (hay sub : String) : Prop :=
  ∃ l r, hay.data = l ++ sub.data ++ r

end PGE

namespace PGE

/-! ## Theorems: popover lifecycle (C2) -/

/-- C2: at every moment at most one popover (tooltip or
bottom-sheet-with-backdrop) exists: the initial state has none, every
dismissAll leaves none, and each show operation first dismisses whatever
is open and leaves exactly one popover carrying the new content — so
activating control B while control A's popover is open leaves exactly
one popover, showing B's note content. -/
theorem C2_single_popover :
    popCount initialFnState = 0 ∧
    (∀ st, popCount (dismissAll st) = 0) ∧
    (∀ st text, popCount (showTooltip text st) = 1 ∧
      (showTooltip text st).activeTooltip = some ⟨text⟩ ∧
      (showTooltip text st).activeSheet = none ∧
      (showTooltip text st).backdrop = none) ∧
    (∀ st num text, popCount (showBottomSheet num text st) = 1 ∧
      (showBottomSheet num text st).activeSheet = some ⟨num, text⟩ ∧
      (showBottomSheet num text st).activeTooltip = none ∧
      (showBottomSheet num text st).backdrop = some ()) :=
  ⟨rfl, fun _ => rfl,
   fun _ _ => ⟨rfl, rfl, rfl, rfl⟩,
   fun _ _ _ => ⟨rfl, rfl, rfl, rfl⟩⟩

/-! ## Theorems: reading history (C3, C10) -/

theorem isRead_saveScrollPosition (slug : String) (pos : ℚ) (now : String)
    (h : RHistory) : isRead slug (saveScrollPosition slug pos now h) = isRead slug h := by
  simp only [isRead, saveScrollPosition, if_pos rfl, Option.map_some']
  cases hs : h slug with
  | none => simp [jsOrBool]
  | some r => simp [jsOrBool]

theorem isRead_markAsRead (slug : String) (wc : Int) (now : String)
    (h : RHistory) : isRead slug (markAsRead slug wc now h) = true := by
  simp [isRead, markAsRead, jsOrBool]

theorem isRead_runScroll_low (slug : String) (wc : Int) (evs : List ScrollEv)
    (h : RHistory) (hlow : ∀ e ∈ evs, scrollFrac e ≤ 9/10)
    (h0 : isRead slug h = false) :
    isRead slug (runScroll slug wc evs h) = false := by
  induction evs generalizing h with
  | nil => exact h0
  | cons e evs ih =>
    have he : ¬ scrollFrac e > 9/10 := not_lt.mpr (hlow e (List.mem_cons_self e evs))
    have : runScroll slug wc (e :: evs) h = runScroll slug wc evs (scrollStep slug wc e h) := rfl
    rw [this]
    refine ih (scrollStep slug wc e h) (fun x hx => hlow x (List.mem_cons_of_mem e hx)) ?_
    simp only [scrollStep, if_neg he]
    rw [isRead_saveScrollPosition]
    exact h0

/-- C3: the read flag of a document starts false, stays false over any
sequence of scroll events whose fraction never exceeds 0.9, is set by
the handler as soon as an event's fraction exceeds 0.9, and once true is
sticky: neither saveScrollPosition nor any further scroll event (with
any fraction) resets it. -/
theorem C3_read_sticky :
    (∀ slug, isRead slug emptyHistory = false) ∧
    (∀ slug wc evs, (∀ e ∈ evs, scrollFrac e ≤ 9/10) →
        isRead slug (runScroll slug wc evs emptyHistory) = false) ∧
    (∀ slug wc e h, scrollFrac e > 9/10 →
        isRead slug (scrollStep slug wc e h) = true) ∧
    (∀ slug h, isRead slug h = true →
        (∀ pos now, isRead slug (saveScrollPosition slug pos now h) = true) ∧
        (∀ wc e, isRead slug (scrollStep slug wc e h) = true)) := by
  refine ⟨fun slug => rfl,
    fun slug wc evs hlow => isRead_runScroll_low slug wc evs emptyHistory hlow rfl,
    fun slug wc e h hhi => ?_,
    fun slug h hr => ⟨fun pos now => ?_, fun wc e => ?_⟩⟩
  · simp only [scrollStep, if_pos hhi]
    exact isRead_markAsRead slug wc e.now _
  · rw [isRead_saveScrollPosition]; exact hr
  · simp only [scrollStep]
    by_cases hf : scrollFrac e > 9/10
    · rw [if_pos hf]; exact isRead_markAsRead slug wc e.now _
    · rw [if_neg hf, isRead_saveScrollPosition]; exact hr

/-- Witness for C3 at concrete inputs: one low-fraction event leaves the
flag false; after markAsRead has set it, a 0.1-fraction scroll event
leaves it true. -/
theorem C3_read_sticky_witness :
    isRead "a" (runScroll "a" 100 [⟨1, 3, 1, "t"⟩] emptyHistory) = false ∧
    isRead "a" (scrollStep "a" 100 ⟨1, 10, 0, "t2"⟩ (markAsRead "a" 5 "t" emptyHistory)) = true :=
  ⟨C3_read_sticky.2.1 "a" 100 [⟨1, 3, 1, "t"⟩]
      (by intro e he
          rcases List.mem_singleton.mp he with rfl
          norm_num [scrollFrac]),
   (C3_read_sticky.2.2.2 "a" (markAsRead "a" 5 "t" emptyHistory) (by decide)).2 100 ⟨1, 10, 0, "t2"⟩⟩

/-- C10: markAsRead touches only the given document's record, and there
only the read flag, the timestamp and the word count: every other
document's record is returned unchanged, and an existing record keeps
its stored scrollPosition. -/
theorem C10_markAsRead_frame :
    ∀ h slug wc now,
      (∀ s, s ≠ slug → markAsRead slug wc now h s = h s) ∧
      (∀ r, h slug = some r →
        markAsRead slug wc now h slug =
          some { read := true, scrollPosition := r.scrollPosition,
                 lastReadAt := some now, wordCount := some wc }) := by
  intro h slug wc now
  refine ⟨fun s hs => ?_, fun r hr => ?_⟩
  · simp [markAsRead, if_neg hs]
  · simp [markAsRead, hr]

/-- Witness for C10 at a concrete store: the record of the other
document is untouched, and the marked record keeps its scroll offset. -/
theorem C10_markAsRead_frame_witness :
    markAsRead "a" 9 "t1"
        (fun s => if s = "a" then some ⟨false, some 7, some "t0", some 3⟩ else none) "b" =
      (fun s => if s = "a" then some ⟨false, some 7, some "t0", some 3⟩ else none) "b" ∧
    markAsRead "a" 9 "t1"
        (fun s => if s = "a" then some ⟨false, some 7, some "t0", some 3⟩ else none) "a" =
      some ⟨true, some 7, some "t1", some 9⟩ :=
  ⟨(C10_markAsRead_frame _ "a" 9 "t1").1 "b" (by decide),
   (C10_markAsRead_frame _ "a" 9 "t1").2 ⟨false, some 7, some "t0", some 3⟩ (by decide)⟩

end PGE

namespace PGE

/-! ## Theorems: reader settings (C6, C7) and load fallbacks (C9) -/

/-- Counterexample to C6 as stated: loadSettings performs no clamping,
so a persisted record with font-size level 99 and line-height level 99
is returned with both ordinal fields out of range. -/
theorem C6_cex_load_unclamped :
    (loadSettings (.val ⟨none, none, some 99, some 99, none⟩)).fontSize = 99 ∧
    ¬ (loadSettings (.val ⟨none, none, some 99, some 99, none⟩)).fontSize ≤ 4 ∧
    (loadSettings (.val ⟨none, none, some 99, some 99, none⟩)).lineHeight = 99 ∧
    ¬ (loadSettings (.val ⟨none, none, some 99, some 99, none⟩)).lineHeight ≤ 2 := by
  refine ⟨rfl, by decide, rfl, by decide⟩

/-- C6 as amended: only adjustFontSize clamps, and only the font-size
field.  Its result always has the font-size level in 0..4, and in
particular adjustFontSize(-10) from level 2 yields level 0, never a
negative level; loadSettings itself returns a persisted font-size level
unchanged, without clamping. -/
theorem C6_adjustFontSize_clamped :
    (∀ st delta, 0 ≤ (adjustFontSize st delta).fontSize ∧
        (adjustFontSize st delta).fontSize ≤ 4) ∧
    (adjustFontSize (.val ⟨none, none, some 2, none, none⟩) (-10)).fontSize = 0 ∧
    (∀ p : StoredSettings, ∀ n, p.fontSize = some n →
        (loadSettings (.val p)).fontSize = n) := by
  refine ⟨fun st delta => ?_, by decide, fun p n hp => ?_⟩
  · simp only [adjustFontSize]
    omega
  · simp only [loadSettings, hp, Option.getD_some]
    cases h : themeMigration (p.theme.getD DEFAULTS.theme) <;> simp

/-- Witness for C6's amended claim at a concrete persisted record: a
stored out-of-range font-size level loads unchanged. -/
theorem C6_adjustFontSize_clamped_witness :
    (loadSettings (.val ⟨none, none, some 99, none, none⟩)).fontSize = 99 :=
  C6_adjustFontSize_clamped.2.2 ⟨none, none, some 99, none, none⟩ 99 rfl

/-- Counterexample to C7 as stated: a persisted theme value outside the
migration table (here "purple") is not rewritten to a current value; it
loads unchanged, so the loaded theme is not always in the current set. -/
theorem C7_cex_unknown_theme :
    (loadSettings (.val ⟨some "purple", none, none, none, none⟩)).theme = "purple" ∧
    (loadSettings (.val ⟨some "purple", none, none, none, none⟩)).theme ∉ currentThemes := by
  refine ⟨rfl, by decide⟩

/-- C7 as amended: loadSettings rewrites exactly the three legacy theme
values through the fixed migration table — "light" loads as "white",
"sepia" as "tan", "dark" as "black" — while a persisted theme with no
table entry loads unchanged; a missing theme field and missing or
unparsable storage load as the default "white". -/
theorem C7_theme_migration :
    (∀ p : StoredSettings, p.theme = some "light" →
        (loadSettings (.val p)).theme = "white") ∧
    (∀ p : StoredSettings, p.theme = some "sepia" →
        (loadSettings (.val p)).theme = "tan") ∧
    (∀ p : StoredSettings, p.theme = some "dark" →
        (loadSettings (.val p)).theme = "black") ∧
    (∀ p : StoredSettings, ∀ t, p.theme = some t → themeMigration t = none →
        (loadSettings (.val p)).theme = t) ∧
    (∀ p : StoredSettings, p.theme = none → (loadSettings (.val p)).theme = "white") ∧
    (loadSettings .missing).theme = "white" ∧
    (loadSettings .corrupt).theme = "white" := by
  refine ⟨fun p hp => ?_, fun p hp => ?_, fun p hp => ?_,
    fun p t hp hm => ?_, fun p hp => ?_, rfl, rfl⟩
  · simp [loadSettings, hp, themeMigration]
  · simp [loadSettings, hp, themeMigration]
  · simp [loadSettings, hp, themeMigration]
  · simp [loadSettings, hp, hm]
  · simp [loadSettings, hp, DEFAULTS, themeMigration]

/-- Witness for C7's amended claim at concrete persisted records: each
legacy value migrates, and an unknown value passes through. -/
theorem C7_theme_migration_witness :
    (loadSettings (.val ⟨some "light", none, none, none, none⟩)).theme = "white" ∧
    (loadSettings (.val ⟨some "sepia", none, none, none, none⟩)).theme = "tan" ∧
    (loadSettings (.val ⟨some "dark", none, none, none, none⟩)).theme = "black" ∧
    (loadSettings (.val ⟨some "grey", none, none, none, none⟩)).theme = "grey" :=
  ⟨C7_theme_migration.1 ⟨some "light", none, none, none, none⟩ rfl,
   C7_theme_migration.2.1 ⟨some "sepia", none, none, none, none⟩ rfl,
   C7_theme_migration.2.2.1 ⟨some "dark", none, none, none, none⟩ rfl,
   C7_theme_migration.2.2.2.1 ⟨some "grey", none, none, none, none⟩ "grey" rfl (by decide)⟩

/-- C9: every load operation of the three stores is total over the
outcome of the storage read, and a missing item or a parse failure is
caught and yields the default preference record, the empty history and
the empty annotation store respectively. -/
theorem C9_loads_never_fail :
    getHistory .missing = emptyHistory ∧ getHistory .corrupt = emptyHistory ∧
    loadSettings .missing = DEFAULTS ∧ loadSettings .corrupt = DEFAULTS ∧
    getStore .missing = [] ∧ getStore .corrupt = [] :=
  ⟨rfl, rfl, rfl, rfl, rfl, rfl⟩

end PGE

namespace PGE

/-! ## Theorems: definition extraction (C4) -/

theorem dropWhile_head_false {p : Char → Bool} :
    ∀ {l c t}, List.dropWhile p l = c :: t → p c = false := by
  intro l
  induction l with
  | nil => intro c t h; simp at h
  | cons a l ih =>
    intro c t h
    rw [List.dropWhile_cons] at h
    by_cases ha : p a
    · rw [if_pos ha] at h; exact ih h
    · rw [if_neg ha] at h
      cases h
      simpa using ha

theorem dropWhile_idem (p : Char → Bool) :
    ∀ l, List.dropWhile p (List.dropWhile p l) = List.dropWhile p l := by
  intro l
  induction l with
  | nil => simp
  | cons a l ih =>
    rw [List.dropWhile_cons]
    by_cases ha : p a
    · rw [if_pos ha]; exact ih
    · rw [if_neg ha, List.dropWhile_cons, if_neg ha]

theorem getLast?_dropWhile (p : Char → Bool) :
    ∀ l, List.dropWhile p l ≠ [] → (List.dropWhile p l).getLast? = l.getLast? := by
  intro l
  induction l with
  | nil => simp
  | cons a l ih =>
    intro hne
    rw [List.dropWhile_cons] at hne ⊢
    by_cases ha : p a
    · rw [if_pos ha] at hne ⊢
      have hl : l ≠ [] := by
        intro h; subst h; simp [List.dropWhile] at hne
      cases l with
      | nil => simp at hl
      | cons b t => rw [ih hne, List.getLast?_cons_cons]
    · rw [if_neg ha]

theorem jsTrimL_head (l : List Char) :
    List.dropWhile jsWs (jsTrimL l) = jsTrimL l := by
  unfold jsTrimL
  cases hC : List.dropWhile jsWs (List.dropWhile jsWs l).reverse with
  | nil => simp
  | cons x xs =>
    cases hB : (x :: xs).reverse with
    | nil => simp at hB
    | cons b bs =>
      rw [List.dropWhile_cons]
      have hlast : (x :: xs).getLast? = some b := by
        rw [← List.head?_reverse, hB]; rfl
      have hAlast : (List.dropWhile jsWs l).reverse.getLast? = some b := by
        rw [← getLast?_dropWhile jsWs _ (by rw [hC]; simp), hC, hlast]
      have hAhead : (List.dropWhile jsWs l).head? = some b := by
        rw [← List.getLast?_reverse, hAlast]
      have hb : jsWs b = false := by
        cases hA : List.dropWhile jsWs l with
        | nil => rw [hA] at hAhead; simp at hAhead
        | cons a t =>
          rw [hA] at hAhead
          have hab : a = b := by simpa using hAhead
          subst hab
          exact dropWhile_head_false hA
      rw [hb]
      simp

theorem jsTrimL_idem (l : List Char) : jsTrimL (jsTrimL l) = jsTrimL l := by
  have h1 : List.dropWhile jsWs (jsTrimL l) = jsTrimL l := jsTrimL_head l
  have h2 : (jsTrimL l).reverse =
      List.dropWhile jsWs (List.dropWhile jsWs l).reverse := by
    simp [jsTrimL]
  calc jsTrimL (jsTrimL l)
      = ((List.dropWhile jsWs (jsTrimL l)).reverse.dropWhile jsWs).reverse := rfl
    _ = ((jsTrimL l).reverse.dropWhile jsWs).reverse := by rw [h1]
    _ = ((List.dropWhile jsWs (List.dropWhile jsWs l).reverse).dropWhile
          jsWs).reverse := by rw [h2]
    _ = (List.dropWhile jsWs (List.dropWhile jsWs l).reverse).reverse := by
          rw [dropWhile_idem]
    _ = jsTrimL l := by rw [← h2, List.reverse_reverse]

theorem jsTrim_idem (s : String) : jsTrim (jsTrim s) = jsTrim s := by
  simp [jsTrim, jsTrimL_idem]

mutual

theorem splitN_keys (l : List Char) :
    ∀ k seg, (k, seg) ∈ (splitN l).2 → k ≠ "" ∧ k.data.all Char.isDigit = true := by
  cases l with
  | nil => intro k seg h; simp [splitN] at h
  | cons c rest =>
    intro k seg h
    by_cases hc : c = '['
    · rw [splitN, if_pos hc] at h
      exact splitNMark_keys rest [] rfl k seg h
    · rw [splitN, if_neg hc] at h
      exact splitN_keys rest k seg h

theorem splitNMark_keys (l : List Char) :
    ∀ ds, ds.all Char.isDigit = true →
      ∀ k seg, (k, seg) ∈ (splitNMark ds l).2 →
        k ≠ "" ∧ k.data.all Char.isDigit = true := by
  cases l with
  | nil => intro ds _ k seg h; simp [splitNMark] at h
  | cons c rest =>
    intro ds hds k seg h
    by_cases hd : c.isDigit
    · rw [splitNMark, if_pos hd] at h
      exact splitNMark_keys rest (c :: ds) (by simp [List.all_cons, hd, hds]) k seg h
    · by_cases hc : c = ']'
      · by_cases he : ds.isEmpty
        · rw [splitNMark, if_neg hd, if_pos hc, if_pos he] at h
          exact splitN_keys rest k seg h
        · rw [splitNMark, if_neg hd, if_pos hc, if_neg he] at h
          simp only [List.mem_cons] at h
          rcases h with h | h
          · have hkeq : k = (⟨ds.reverse⟩ : String) := by
              have := congrArg Prod.fst h; simpa using this
            subst hkeq
            constructor
            · intro hk
              have : ds.reverse = ([] : List Char) := by
                have := congrArg String.data hk; simpa using this
              have : ds = [] := by simpa using this
              subst this
              simp at he
            · simpa using hds
          · exact splitN_keys rest k seg h
      · by_cases hb : c = '['
        · rw [splitNMark, if_neg hd, if_neg hc, if_pos hb] at h
          exact splitNMark_keys rest [] rfl k seg h
        · rw [splitNMark, if_neg hd, if_neg hc, if_neg hb] at h
          exact splitN_keys rest k seg h

end

theorem mapSet_preserve {P : String × String → Prop} (m : FnMap) (k v : String)
    (hm : ∀ p ∈ m, P p) (hkv : P (k, v)) : ∀ p ∈ mapSet m k v, P p := by
  intro p hp
  unfold mapSet at hp
  by_cases hmem : m.any (fun p => p.1 == k)
  · rw [if_pos hmem] at hp
    rcases List.mem_map.mp hp with ⟨q, hq, hfq⟩
    by_cases hqk : q.1 == k
    · rw [if_pos hqk] at hfq; rw [← hfq]; exact hkv
    · rw [if_neg hqk] at hfq; rw [← hfq]; exact hm q hq
  · rw [if_neg hmem] at hp
    rcases List.mem_append.mp hp with hp | hp
    · exact hm p hp
    · rcases List.mem_singleton.mp hp with rfl; exact hkv

theorem foldl_preserve {α : Type} {P : String × String → Prop}
    (f : FnMap → α → FnMap) :
    ∀ (l : List α) (m : FnMap),
      (∀ m' a, a ∈ l → (∀ p ∈ m', P p) → ∀ p ∈ f m' a, P p) →
      (∀ p ∈ m, P p) → ∀ p ∈ l.foldl f m, P p := by
  intro l
  induction l with
  | nil => intro m _ hm; simpa using hm
  | cons a l ih =>
    intro m hf hm
    rw [List.foldl_cons]
    exact ih (f m a)
      (fun m' x hx => hf m' x (List.mem_cons_of_mem a hx))
      (hf m a (List.mem_cons_self a l) hm)

/-- C4: every entry of the Footnote Definition Map computed by
parseFootnotes has a key that is a non-empty decimal-digit string (the
captured citation number) and a value that is a non-empty trimmed string
(the following segment, markup stripped and whitespace trimmed, empty
definitions having been discarded). -/
theorem C4_parseFootnotes_entries :
    ∀ (sections : List NotesSection) (k v : String),
      (k, v) ∈ parseFootnotes sections →
        k ≠ "" ∧ k.data.all Char.isDigit = true ∧ v ≠ "" ∧ jsTrim v = v := by
  intro sections k v hkv
  have P : ∀ p ∈ parseFootnotes sections,
      p.1 ≠ "" ∧ p.1.data.all Char.isDigit = true ∧ p.2 ≠ "" ∧ jsTrim p.2 = p.2 := by
    unfold parseFootnotes
    refine foldl_preserve _ sections [] ?_ (by simp)
    intro m sec _ hm
    cases hst : sec.strongText with
    | none => simpa using hm
    | some t =>
      by_cases hn : startsNotes t
      · simp only [hst, if_pos hn]
        refine foldl_preserve _ _ m ?_ hm
        intro m' pr hpr hm'
        by_cases ht : jsTrim ⟨stripTags pr.2⟩ ≠ ""
        · simp only [if_pos ht]
          refine mapSet_preserve m' _ _ hm' ?_
          refine ⟨(splitN_keys _ pr.1 pr.2 (by simpa using hpr)).1,
            (splitN_keys _ pr.1 pr.2 (by simpa using hpr)).2, ht, ?_⟩
          simp [jsTrim, jsTrimL_idem]
        · simp only [if_neg ht]
          exact hm'
      · simp only [hst, if_neg hn]
        exact hm
  exact P (k, v) hkv

/-- Witness for C4 at a concrete notes section containing markup,
padding and two definitions. -/
theorem C4_parseFootnotes_entries_witness :
    ("2", "second") ∈
      parseFootnotes [⟨some "Notes", "[1] first <b>note</b> [2]  second "⟩] ∧
    ("2" ≠ "" ∧ "2".data.all Char.isDigit = true ∧
      "second" ≠ "" ∧ jsTrim "second" = "second") :=
  ⟨by decide,
   C4_parseFootnotes_entries [⟨some "Notes", "[1] first <b>note</b> [2]  second "⟩]
     "2" "second" (by decide)⟩

end PGE

namespace PGE

/-! ## Theorems: annotation export (C8) -/

theorem sdata (a b : String) : (a ++ b).data = a.data ++ b.data := rfl

theorem colorOfStr_colorStr (c : HColor) : colorOfStr (colorStr c) = some c := by
  cases c <;> rfl

theorem decodeHighlight_encodeHighlight (a : Highlight) :
    decodeHighlight (encodeHighlight a) = some a := by
  obtain ⟨id, slug, text, color, so, eo, ps, ca⟩ := a
  cases color <;> rfl

theorem decodeHighlights_encode (anns : List Highlight) :
    decodeHighlights (anns.map encodeHighlight) = some anns := by
  induction anns with
  | nil => rfl
  | cons a t ih =>
    simp only [List.map_cons, decodeHighlights, decodeHighlight_encodeHighlight, ih]

/-- JSON round trip of the whole store. -/
theorem decodeStore_encodeStore (st : AnnStore) :
    decodeStore (encodeStore st) = some st := by
  induction st with
  | nil => rfl
  | cons e t ih =>
    simp only [encodeStore, decodeStore] at ih ⊢
    rw [List.map_cons]
    simp only [decodeEntries, decodeHighlights_encode, ih]

theorem innerFold_data (fd : String → String) :
    ∀ (anns : List Highlight) (acc : String),
      (anns.foldl (innerStepT fd) acc).data =
        acc.data ++ (anns.foldl (innerStepT fd) "").data := by
  intro anns
  induction anns with
  | nil => intro acc; simp
  | cons a t ih =>
    intro acc
    rw [List.foldl_cons, List.foldl_cons, ih (innerStepT fd acc a),
      ih (innerStepT fd "" a)]
    simp [innerStepT, sdata]

theorem outerFold_data (fd : String → String) :
    ∀ (st : AnnStore) (acc : String),
      (st.foldl (outerStepT fd) acc).data =
        acc.data ++ (st.foldl (outerStepT fd) "").data := by
  intro st
  induction st with
  | nil => intro acc; simp
  | cons e t ih =>
    intro acc
    rw [List.foldl_cons, List.foldl_cons, ih (outerStepT fd acc e),
      ih (outerStepT fd "" e)]
    have h1 : (outerStepT fd acc e).data = acc.data ++ (outerStepT fd "" e).data := by
      unfold outerStepT
      rw [innerFold_data fd e.2 (acc ++ ("## " ++ e.1 ++ "\n\n")),
        innerFold_data fd e.2 ("" ++ ("## " ++ e.1 ++ "\n\n"))]
      simp [sdata]
    rw [h1, List.append_assoc]

theorem strContains_append_right {b sub : String} (a : String)
    (h : strContains b sub) : strContains (a ++ b) sub := by
  rcases h with ⟨l, r, hd⟩
  exact ⟨a.data ++ l, r, by simp [sdata, hd]⟩

theorem strContains_append_left {a sub : String} (b : String)
    (h : strContains a sub) : strContains (a ++ b) sub := by
  rcases h with ⟨l, r, hd⟩
  exact ⟨l, r ++ b.data, by simp [sdata, hd]⟩

theorem strContains_data {hay sub : String} (l r : List Char)
    (h : hay.data = l ++ sub.data ++ r) : strContains hay sub := ⟨l, r, h⟩

theorem innerFold_contains (fd : String → String) (a : Highlight) :
    ∀ (anns : List Highlight), a ∈ anns → ∀ acc : String,
      strContains (anns.foldl (innerStepT fd) acc) ("> " ++ a.text ++ "\n") ∧
      strContains (anns.foldl (innerStepT fd) acc) ("[" ++ colorStr a.color ++ "]") := by
  intro anns
  induction anns with
  | nil => intro h; simp at h
  | cons b t ih =>
    intro hmem acc
    rcases List.mem_cons.mp hmem with rfl | hmem
    · rw [List.foldl_cons]
      constructor
      · refine strContains_data (l := acc.data)
          (r := ("  [" ++ colorStr a.color ++ "] — " ++ fd a.createdAt ++ "\n\n").data
            ++ (t.foldl (innerStepT fd) "").data) ?_
        rw [innerFold_data]
        simp [innerStepT, sdata]
      · refine strContains_data
          (l := acc.data ++ ("> " ++ a.text ++ "\n").data ++ "  ".data)
          (r := ("] — " ++ fd a.createdAt ++ "\n\n").data.tail
            ++ (t.foldl (innerStepT fd) "").data) ?_
        rw [innerFold_data]
        simp [innerStepT, sdata]
    · rw [List.foldl_cons]
      exact ih hmem (innerStepT fd acc b)

theorem outerFold_contains (fd : String → String) (slug : String)
    (anns : List Highlight) (a : Highlight) (ha : a ∈ anns) :
    ∀ (st : AnnStore), (slug, anns) ∈ st → ∀ acc : String,
      strContains (st.foldl (outerStepT fd) acc) ("> " ++ a.text ++ "\n") ∧
      strContains (st.foldl (outerStepT fd) acc) ("[" ++ colorStr a.color ++ "]") := by
  intro st
  induction st with
  | nil => intro h; simp at h
  | cons e t ih =>
    intro hmem acc
    rcases List.mem_cons.mp hmem with rfl | hmem
    · rw [List.foldl_cons]
      have hin := innerFold_contains fd a anns ha (acc ++ ("## " ++ slug ++ "\n\n"))
      have h1 : strContains (outerStepT fd acc (slug, anns)) ("> " ++ a.text ++ "\n") := hin.1
      have h2 : strContains (outerStepT fd acc (slug, anns)) ("[" ++ colorStr a.color ++ "]") := hin.2
      constructor
      · rcases h1 with ⟨l, r, hd⟩
        refine strContains_data (l := l) (r := r ++ (t.foldl (outerStepT fd) "").data) ?_
        rw [outerFold_data, hd]
        simp
      · rcases h2 with ⟨l, r, hd⟩
        refine strContains_data (l := l) (r := r ++ (t.foldl (outerStepT fd) "").data) ?_
        rw [outerFold_data, hd]
        simp
    · rw [List.foldl_cons]
      exact ih hmem (outerStepT fd acc e)

/-- C8: export in json mode round-trips — parsing the serialized store
reproduces exactly the in-memory store — and export in text mode
contains, for every document with at least one highlight, each
highlight's quoted text and its color tag. -/
theorem C8_export_roundtrip :
    (∀ st : AnnStore, decodeStore (exportAnnotationsJson st) = some st) ∧
    (∀ (fd : String → String) (st : AnnStore) (slug : String)
        (anns : List Highlight) (a : Highlight),
      (slug, anns) ∈ st → a ∈ anns →
        strContains (exportAnnotationsText fd st) ("> " ++ a.text ++ "\n") ∧
        strContains (exportAnnotationsText fd st) ("[" ++ colorStr a.color ++ "]")) := by
  refine ⟨fun st => decodeStore_encodeStore st, ?_⟩
  intro fd st slug anns a hst ha
  exact outerFold_contains fd slug anns a ha st hst _

/-- Witness for C8 at a concrete one-document store. -/
theorem C8_export_roundtrip_witness :
    decodeStore (exportAnnotationsJson
      [("essay", [⟨"id1", "essay", "quoted words", .green, 0, 0, "", "2026-01-01"⟩])]) =
      some [("essay", [⟨"id1", "essay", "quoted words", .green, 0, 0, "", "2026-01-01"⟩])] ∧
    strContains
      (exportAnnotationsText (fun _ => "1/1/2026")
        [("essay", [⟨"id1", "essay", "quoted words", .green, 0, 0, "", "2026-01-01"⟩])])
      ("> " ++ "quoted words" ++ "\n") :=
  ⟨C8_export_roundtrip.1 _,
   (C8_export_roundtrip.2 (fun _ => "1/1/2026") _ "essay"
      [⟨"id1", "essay", "quoted words", .green, 0, 0, "", "2026-01-01"⟩]
      ⟨"id1", "essay", "quoted words", .green, 0, 0, "", "2026-01-01"⟩
      (by decide) (by decide)).1⟩

end PGE

namespace PGE

/-! ## Theorems: the plain-text pass creates exactly the counted
controls (groundwork for C1 and C5) -/

theorem controlCountL_append (tgt : String) (xs ys : List DNode) :
    controlCountL tgt (xs ++ ys) = controlCountL tgt xs + controlCountL tgt ys := by
  induction xs with
  | nil => simp [controlCountL]
  | cons n l ih => simp [controlCountL, ih]; omega

theorem controlCount_mkBtn (tgt n : String) :
    controlCountN tgt (mkBtn n) = if n = tgt then 1 else 0 := by
  have hga : getAttr [("data-fn", n), ("aria-label", "Footnote " ++ n)] "data-fn"
      = some n := rfl
  simp [mkBtn, controlCountN, controlCountL, hga]

theorem controlCount_emitText (tgt : String) (acc : List Char) :
    controlCountL tgt (emitText acc) = 0 := by
  unfold emitText
  by_cases h : acc.isEmpty <;> simp [h, controlCountL, controlCountN]

theorem count_valid_zero {ts : List Tok} {tgt : String}
    (h : hasValid ts = false) : ts.count (Tok.valid tgt) = 0 := by
  rw [List.count_eq_zero]
  intro hmem
  have : isValidTok (Tok.valid tgt) = true := rfl
  have := List.any_eq_true.mpr ⟨_, hmem, this⟩
  rw [hasValid] at h
  rw [h] at this
  exact Bool.false_ne_true this

theorem controlCount_emitToks (tgt : String) :
    ∀ (ts : List Tok) (acc : List Char),
      controlCountL tgt (emitToks acc ts) = ts.count (Tok.valid tgt) := by
  intro ts
  induction ts with
  | nil =>
    intro acc
    simp [emitToks, controlCount_emitText, List.count_nil]
  | cons t ts ih =>
    intro acc
    cases t with
    | plain c =>
      rw [emitToks, ih, List.count_cons]
      simp
    | invalid n =>
      rw [emitToks, ih, List.count_cons]
      simp
    | valid n =>
      have h1 : controlCountL tgt (mkBtn n :: emitToks [] ts)
          = (if n = tgt then 1 else 0) + ts.count (Tok.valid tgt) := by
        simp only [controlCountL, controlCount_mkBtn, ih []]
      rw [emitToks, controlCountL_append, controlCount_emitText, h1,
        List.count_cons]
      rcases eq_or_ne n tgt with rfl | h
      · simp [Nat.add_comm]
      · simp [h, Ne.symm h]

theorem controlCount_processText (fns : FnMap) (tgt : String) (s : String) :
    controlCountL tgt (processText fns s) = countValid fns tgt s := by
  unfold processText countValid
  by_cases h : hasValid (lex fns s.data)
  · rw [if_pos h, controlCount_emitToks]
  · rw [if_neg h]
    have hf : hasValid (lex fns s.data) = false := by
      revert h; cases hasValid (lex fns s.data) <;> simp
    rw [count_valid_zero hf]
    simp [controlCountL, controlCountN]

end PGE

namespace PGE

mutual

/-- The plain-text pass on one node adds exactly the counted valid
citations as controls. -/
theorem wrapPlain_countN (fns : FnMap) (ex : Bool) (tgt : String) (n : DNode) :
    controlCountL tgt (wrapPlainN fns ex n) =
      controlCountN tgt n + plainCountN fns ex tgt n := by
  cases n with
  | text s =>
    by_cases hex : ex
    · simp [wrapPlainN, hex, controlCountL, controlCountN, plainCountN]
    · simp [wrapPlainN, hex, plainCountN, controlCount_processText,
        controlCountN, controlCountL]
  | elem t a cs =>
    simp only [wrapPlainN, controlCountL, controlCountN, plainCountN]
    rw [wrapPlain_countL fns (ex || exclElem t a) tgt cs]
    omega

/-- The plain-text pass on a node list adds exactly the counted valid
citations as controls. -/
theorem wrapPlain_countL (fns : FnMap) (ex : Bool) (tgt : String) (l : List DNode) :
    controlCountL tgt (wrapPlainL fns ex l) =
      controlCountL tgt l + plainCountL fns ex tgt l := by
  cases l with
  | nil => simp [wrapPlainL, controlCountL, plainCountL]
  | cons n rest =>
    simp only [wrapPlainL, plainCountL, controlCountL]
    rw [controlCountL_append, wrapPlain_countN fns ex tgt n,
      wrapPlain_countL fns ex tgt rest]
    omega

end

theorem getAttr_none {a : List (String × String)} {nm : String}
    (h : hasAttr a nm = false) : getAttr a nm = none := by
  unfold getAttr
  rw [List.find?_eq_none.mpr]
  · rfl
  · intro x hx hpx
    have : a.any (fun p => p.1 == nm) = true := List.any_eq_true.mpr ⟨x, hx, hpx⟩
    rw [hasAttr] at h
    rw [h] at this
    exact Bool.false_ne_true this

theorem labeledOKL_append (xs ys : List DNode) :
    labeledOKL (xs ++ ys) = (labeledOKL xs && labeledOKL ys) := by
  induction xs with
  | nil => simp [labeledOKL]
  | cons n l ih => simp [labeledOKL, ih, Bool.and_assoc]

theorem labeledOK_mkBtn (n : String) : labeledOKN (mkBtn n) = true := by
  have hga : getAttr [("data-fn", n), ("aria-label", "Footnote " ++ n)] "data-fn"
      = some n := rfl
  have hal : getAttr [("data-fn", n), ("aria-label", "Footnote " ++ n)] "aria-label"
      = some ("Footnote " ++ n) := rfl
  simp [mkBtn, labeledOKN, labeledOKL, hga, hal]

theorem labeledOK_emitText (acc : List Char) : labeledOKL (emitText acc) = true := by
  unfold emitText
  by_cases h : acc.isEmpty <;> simp [h, labeledOKL, labeledOKN]

theorem labeledOK_emitToks : ∀ (ts : List Tok) (acc : List Char),
    labeledOKL (emitToks acc ts) = true := by
  intro ts
  induction ts with
  | nil => intro acc; simp [emitToks, labeledOK_emitText]
  | cons t ts ih =>
    intro acc
    cases t with
    | plain c => rw [emitToks]; exact ih _
    | invalid n => rw [emitToks]; exact ih _
    | valid n =>
      rw [emitToks, labeledOKL_append, labeledOK_emitText]
      simp [labeledOKL, labeledOK_mkBtn, ih []]

theorem labeledOK_processText (fns : FnMap) (s : String) :
    labeledOKL (processText fns s) = true := by
  unfold processText
  by_cases h : hasValid (lex fns s.data)
  · rw [if_pos h]; exact labeledOK_emitToks _ _
  · rw [if_neg h]; simp [labeledOKL, labeledOKN]

mutual

/-- The plain-text pass preserves correct labelling of all controls. -/
theorem wrapPlain_labelN (fns : FnMap) (ex : Bool) (n : DNode)
    (h : labeledOKN n = true) : labeledOKL (wrapPlainN fns ex n) = true := by
  cases n with
  | text s =>
    by_cases hex : ex
    · simp [wrapPlainN, hex, labeledOKL, labeledOKN]
    · simp [wrapPlainN, hex, labeledOK_processText]
  | elem t a cs =>
    simp only [labeledOKN, Bool.and_eq_true] at h
    simp only [wrapPlainN, labeledOKL, labeledOKN, Bool.and_eq_true]
    exact ⟨⟨h.1, wrapPlain_labelL fns (ex || exclElem t a) cs h.2⟩, trivial⟩

/-- The plain-text pass preserves correct labelling on a node list. -/
theorem wrapPlain_labelL (fns : FnMap) (ex : Bool) (l : List DNode)
    (h : labeledOKL l = true) : labeledOKL (wrapPlainL fns ex l) = true := by
  cases l with
  | nil => simp [wrapPlainL, labeledOKL]
  | cons n rest =>
    simp only [labeledOKL, Bool.and_eq_true] at h
    simp only [wrapPlainL, labeledOKL_append, Bool.and_eq_true]
    exact ⟨wrapPlain_labelN fns ex n h.1, wrapPlain_labelL fns ex rest h.2⟩

end

mutual

/-- A tree without controls is trivially correctly labelled. -/
theorem noControls_labelN (n : DNode) (h : noControlsN n = true) :
    labeledOKN n = true := by
  cases n with
  | text s => rfl
  | elem t a cs =>
    simp only [noControlsN, Bool.and_eq_true] at h
    have hga : getAttr a "data-fn" = none := by
      refine getAttr_none ?_
      revert h
      cases hasAttr a "data-fn" <;> simp
    simp only [labeledOKN, hga, Bool.and_eq_true]
    exact ⟨trivial, noControls_labelL cs h.2⟩

/-- A node list without controls is trivially correctly labelled. -/
theorem noControls_labelL (l : List DNode) (h : noControlsL l = true) :
    labeledOKL l = true := by
  cases l with
  | nil => rfl
  | cons n rest =>
    simp only [noControlsL, Bool.and_eq_true] at h
    simp only [labeledOKL, Bool.and_eq_true]
    exact ⟨noControls_labelN n h.1, noControls_labelL rest h.2⟩

end

end PGE

namespace PGE

/-! ## Theorems: the plain-text pass preserves text content -/

theorem strEq {a b : String} (h : a.data = b.data) : a = b := by
  cases a; cases b; exact congrArg String.mk h

theorem str_append_nil (s : String) : s ++ "" = s :=
  strEq (by simp [sdata])

theorem textContentL_append (xs ys : List DNode) :
    textContentL (xs ++ ys) = textContentL xs ++ textContentL ys := by
  induction xs with
  | nil =>
    refine strEq ?_
    simp [textContentL, sdata]
  | cons n l ih =>
    refine strEq ?_
    simp [textContentL, sdata, ih]

theorem untokAll_append (ts us : List Tok) :
    untokAll (ts ++ us) = untokAll ts ++ untokAll us := by
  induction ts with
  | nil => simp [untokAll]
  | cons t ts ih => simp [untokAll, ih]

theorem untokAll_plains (cs : List Char) : untokAll (plains cs) = cs := by
  induction cs with
  | nil => rfl
  | cons c cs ih => simp [plains, untokAll, untokOne] at ih ⊢; exact ih

mutual

/-- The scanned tokens spell out exactly the scanned characters. -/
theorem untokAll_lex (fns : FnMap) (l : List Char) :
    untokAll (lex fns l) = l := by
  cases l with
  | nil => rfl
  | cons c rest =>
    by_cases hc : c = '['
    · rw [lex, if_pos hc, untokAll_lexMark fns rest []]
      simp [hc]
    · rw [lex, if_neg hc]
      simp [untokAll, untokOne, untokAll_lex fns rest]

/-- The tokens of the bracket state spell out the bracket, the read
digits and the remaining characters. -/
theorem untokAll_lexMark (fns : FnMap) (l : List Char) (ds : List Char) :
    untokAll (lexMark fns ds l) = '[' :: ds.reverse ++ l := by
  cases l with
  | nil => rw [lexMark, untokAll_plains]; simp
  | cons c rest =>
    by_cases hd : c.isDigit
    · rw [lexMark, if_pos hd, untokAll_lexMark fns rest (c :: ds)]
      simp
    · by_cases hc : c = ']'
      · by_cases he : ds.isEmpty
        · rw [lexMark, if_neg hd, if_pos hc, if_pos he]
          have : ds = [] := by simpa using he
          subst this
          simp [untokAll, untokOne, untokAll_lex fns rest, hc]
        · rw [lexMark, if_neg hd, if_pos hc, if_neg he]
          by_cases hf : fnHas fns ⟨ds.reverse⟩
          · rw [if_pos hf]
            simp [untokAll, untokOne, untokAll_lex fns rest, hc]
          · rw [if_neg hf]
            simp [untokAll, untokOne, untokAll_lex fns rest, hc]
      · by_cases hb : c = '['
        · rw [lexMark, if_neg hd, if_neg hc, if_pos hb, untokAll_append,
            untokAll_plains, untokAll_lexMark fns rest []]
          simp [hb]
        · rw [lexMark, if_neg hd, if_neg hc, if_neg hb, untokAll_append,
            untokAll_plains]
          simp [untokAll, untokOne, untokAll_lex fns rest]

end

theorem pushAll_reverse : ∀ (cs acc : List Char),
    (pushAll cs acc).reverse = acc.reverse ++ cs := by
  intro cs
  induction cs with
  | nil => intro acc; simp [pushAll]
  | cons c cs ih => intro acc; rw [pushAll, ih]; simp

theorem textContent_emitText (acc : List Char) :
    (textContentL (emitText acc)).data = acc.reverse := by
  unfold emitText
  by_cases h : acc.isEmpty
  · have : acc = [] := by simpa using h
    subst this
    simp [textContentL]
  · simp [h, textContentL, textContentN, sdata]

theorem textContent_emitToks : ∀ (ts : List Tok) (acc : List Char),
    (textContentL (emitToks acc ts)).data = acc.reverse ++ untokAll ts := by
  intro ts
  induction ts with
  | nil => intro acc; rw [emitToks, textContent_emitText]; simp [untokAll]
  | cons t ts ih =>
    intro acc
    cases t with
    | plain c =>
      rw [emitToks, ih]
      simp [untokAll, untokOne]
    | invalid n =>
      rw [emitToks, ih, pushAll_reverse]
      simp [untokAll, untokOne]
    | valid n =>
      rw [emitToks, textContentL_append, sdata, textContent_emitText]
      have : (textContentL (mkBtn n :: emitToks [] ts)).data =
          ('[' :: n.data ++ [']']) ++ untokAll ts := by
        simp only [textContentL, sdata, textContentN, mkBtn, ih []]
        simp [sdata]
      rw [this]
      simp [untokAll, untokOne]

theorem textContent_processText (fns : FnMap) (s : String) :
    (textContentL (processText fns s)).data = s.data := by
  unfold processText
  by_cases h : hasValid (lex fns s.data)
  · rw [if_pos h, textContent_emitToks, untokAll_lex]
    simp
  · rw [if_neg h]
    simp [textContentL, textContentN, sdata]

mutual

/-- The plain-text pass preserves the text content of a node. -/
theorem wrapPlain_textN (fns : FnMap) (ex : Bool) (n : DNode) :
    textContentL (wrapPlainN fns ex n) = textContentN n := by
  cases n with
  | text s =>
    by_cases hex : ex
    · simp only [wrapPlainN, if_pos hex, textContentL, textContentN]
      exact str_append_nil s
    · simp only [wrapPlainN, if_neg hex, textContentN]
      exact strEq (textContent_processText fns s)
  | elem t a cs =>
    simp only [wrapPlainN, textContentL, textContentN]
    rw [wrapPlain_textL fns (ex || exclElem t a) cs]
    exact str_append_nil _

/-- The plain-text pass preserves the text content of a node list. -/
theorem wrapPlain_textL (fns : FnMap) (ex : Bool) (l : List DNode) :
    textContentL (wrapPlainL fns ex l) = textContentL l := by
  cases l with
  | nil => rfl
  | cons n rest =>
    rw [wrapPlainL, textContentL_append, wrapPlain_textN fns ex n,
      wrapPlain_textL fns ex rest]
    rfl

end

end PGE

namespace PGE

/-! ## Theorems: rescanning groundwork for idempotence (C5) -/

theorem takeWhile_of_all {α : Type} {p : α → Bool} :
    ∀ {l : List α}, l.all p = true → l.takeWhile p = l := by
  intro l
  induction l with
  | nil => intro _; rfl
  | cons a t ih =>
    intro h
    simp only [List.all_cons, Bool.and_eq_true] at h
    rw [List.takeWhile_cons, if_pos h.1, ih h.2]

theorem takeWhile_append_of_all {α : Type} {p : α → Bool} :
    ∀ {xs : List α} (ys : List α), xs.all p = true →
      (xs ++ ys).takeWhile p = xs ++ ys.takeWhile p := by
  intro xs
  induction xs with
  | nil => intro ys _; rfl
  | cons a t ih =>
    intro ys h
    simp only [List.all_cons, Bool.and_eq_true] at h
    rw [List.cons_append, List.takeWhile_cons, if_pos h.1, ih ys h.2,
      List.cons_append]

theorem dropWhile_append_of_all {α : Type} {p : α → Bool} :
    ∀ {xs : List α} (ys : List α), xs.all p = true →
      (xs ++ ys).dropWhile p = ys.dropWhile p := by
  intro xs
  induction xs with
  | nil => intro ys _; rfl
  | cons a t ih =>
    intro ys h
    simp only [List.all_cons, Bool.and_eq_true] at h
    rw [List.cons_append, List.dropWhile_cons, if_pos h.1, ih ys h.2]

theorem dwHeadFalse {α : Type} {p : α → Bool} :
    ∀ {l : List α} {x t}, l.dropWhile p = x :: t → p x = false := by
  intro l
  induction l with
  | nil => intro x t h; simp at h
  | cons a l ih =>
    intro x t h
    rw [List.dropWhile_cons] at h
    by_cases ha : p a
    · rw [if_pos ha] at h; exact ih h
    · rw [if_neg ha] at h
      cases h
      simpa using ha

theorem twHead {α : Type} {p : α → Bool} :
    ∀ {l : List α} {x t}, l.takeWhile p = x :: t → ∃ r, l = x :: r := by
  intro l
  cases l with
  | nil => intro x t h; simp at h
  | cons a l =>
    intro x t h
    rw [List.takeWhile_cons] at h
    by_cases ha : p a
    · rw [if_pos ha] at h
      cases h
      exact ⟨l, rfl⟩
    · rw [if_neg ha] at h; cases h

theorem plains_cons (c : Char) (cs : List Char) :
    plains (c :: cs) = Tok.plain c :: plains cs := rfl

theorem plains_all_nv (cs : List Char) : (plains cs).all nvTok = true := by
  induction cs with
  | nil => rfl
  | cons c cs ih =>
    rw [plains_cons, List.all_cons, ih]
    rfl

theorem hasValid_false_of_all_nv {ts : List Tok} (h : ts.all nvTok = true) :
    hasValid ts = false := by
  unfold hasValid
  rw [List.any_eq_false]
  intro t ht
  have := List.all_eq_true.mp h t ht
  revert this
  unfold nvTok
  cases isValidTok t <;> simp

theorem nv_false_valid {t : Tok} (h : nvTok t = false) : ∃ n, t = Tok.valid n := by
  cases t with
  | plain c => simp [nvTok, isValidTok] at h
  | invalid n => simp [nvTok, isValidTok] at h
  | valid n => exact ⟨n, rfl⟩

theorem lexMark_digits (fns : FnMap) :
    ∀ (dd : List Char) (acc l : List Char), dd.all Char.isDigit = true →
      lexMark fns acc (dd ++ l) = lexMark fns (dd.reverse ++ acc) l := by
  intro dd
  induction dd with
  | nil => intro acc l _; rfl
  | cons d dd ih =>
    intro acc l h
    simp only [List.all_cons, Bool.and_eq_true] at h
    rw [List.cons_append, lexMark, if_pos h.1, ih (d :: acc) l h.2]
    simp

theorem lexMark_headTok (fns : FnMap) :
    ∀ (l acc : List Char),
      (∃ M, lexMark fns acc l = Tok.plain '[' :: M) ∨
      (∃ n M, lexMark fns acc l = Tok.valid n :: M) ∨
      (∃ n M, lexMark fns acc l = Tok.invalid n :: M) := by
  intro l
  induction l with
  | nil =>
    intro acc
    exact Or.inl ⟨plains acc.reverse, by rw [lexMark, plains_cons]⟩
  | cons c rest ih =>
    intro acc
    by_cases hd : c.isDigit
    · rw [lexMark, if_pos hd]
      exact ih (c :: acc)
    · by_cases hc : c = ']'
      · by_cases he : acc.isEmpty
        · rw [lexMark, if_neg hd, if_pos hc, if_pos he]
          exact Or.inl ⟨_, rfl⟩
        · rw [lexMark, if_neg hd, if_pos hc, if_neg he]
          by_cases hf : fnHas fns ⟨acc.reverse⟩
          · rw [if_pos hf]
            exact Or.inr (Or.inl ⟨_, _, rfl⟩)
          · rw [if_neg hf]
            exact Or.inr (Or.inr ⟨_, _, rfl⟩)
      · by_cases hb : c = '['
        · rw [lexMark, if_neg hd, if_neg hc, if_pos hb, plains_cons]
          exact Or.inl ⟨_, rfl⟩
        · rw [lexMark, if_neg hd, if_neg hc, if_neg hb, plains_cons]
          exact Or.inl ⟨_, rfl⟩

end PGE

namespace PGE

theorem twHeadSat {α : Type} {p : α → Bool} :
    ∀ {l : List α} {x t}, l.takeWhile p = x :: t → p x = true := by
  intro l
  cases l with
  | nil => intro x t h; simp at h
  | cons a l =>
    intro x t h
    rw [List.takeWhile_cons] at h
    by_cases ha : p a
    · rw [if_pos ha] at h
      cases h
      exact ha
    · rw [if_neg ha] at h; cases h

mutual

/-- Rescanning the leading non-valid run of a scan's output reproduces
that run: the characters the pass leaves as text (plain characters and
citations without a definition) contain no citation match with a
definition. -/
theorem relex_lex (fns : FnMap) (l : List Char) :
    lex fns (untokAll ((lex fns l).takeWhile nvTok)) =
      (lex fns l).takeWhile nvTok := by
  cases l with
  | nil => rfl
  | cons c rest =>
    by_cases hc : c = '['
    · rw [lex, if_pos hc]
      exact relex_lexMark fns rest [] rfl
    · rw [lex, if_neg hc]
      rw [List.takeWhile_cons, if_pos (show nvTok (Tok.plain c) = true from rfl)]
      rw [untokAll]
      simp only [untokOne, List.cons_append, List.nil_append]
      rw [lex, if_neg hc, relex_lex fns rest]

/-- Rescanning the leading non-valid run of the bracket state's output
reproduces that run. -/
theorem relex_lexMark (fns : FnMap) (l : List Char) (ds : List Char)
    (hds : ds.all Char.isDigit = true) :
    lex fns (untokAll ((lexMark fns ds l).takeWhile nvTok)) =
      (lexMark fns ds l).takeWhile nvTok := by
  cases l with
  | nil =>
    rw [lexMark, takeWhile_of_all (plains_all_nv _), untokAll_plains]
    rw [lex, if_pos rfl]
    have hd2 : ds.reverse.all Char.isDigit = true := by simpa using hds
    have h1 : lexMark fns [] (ds.reverse ++ []) =
        lexMark fns (ds.reverse.reverse ++ []) [] := lexMark_digits fns ds.reverse [] [] hd2
    simp only [List.append_nil, List.reverse_reverse] at h1
    rw [h1, lexMark]
  | cons c rest =>
    by_cases hd : c.isDigit
    · rw [lexMark, if_pos hd]
      exact relex_lexMark fns rest (c :: ds) (by simp [hd, hds])
    · by_cases hc : c = ']'
      · by_cases he : ds.isEmpty
        · rw [lexMark, if_neg hd, if_pos hc, if_pos he]
          rw [List.takeWhile_cons, if_pos (show nvTok (Tok.plain '[') = true from rfl),
            List.takeWhile_cons, if_pos (show nvTok (Tok.plain ']') = true from rfl)]
          rw [untokAll, untokAll]
          simp only [untokOne, List.cons_append, List.nil_append]
          rw [lex, if_pos rfl, lexMark,
            if_neg (show ¬ (']' : Char).isDigit = true by decide),
            if_pos rfl, if_pos (show ([] : List Char).isEmpty = true from rfl),
            relex_lex fns rest]
        · rw [lexMark, if_neg hd, if_pos hc, if_neg he]
          by_cases hf : fnHas fns ⟨ds.reverse⟩
          · rw [if_pos hf]
            rw [List.takeWhile_cons,
              if_neg (show ¬ nvTok (Tok.valid ⟨ds.reverse⟩) = true by
                simp [nvTok, isValidTok])]
            rfl
          · rw [if_neg hf]
            rw [List.takeWhile_cons,
              if_pos (show nvTok (Tok.invalid ⟨ds.reverse⟩) = true from rfl)]
            rw [untokAll]
            simp only [untokOne]
            have hsh : ('[' :: (⟨ds.reverse⟩ : String).data ++ [']']) ++
                untokAll ((lex fns rest).takeWhile nvTok) =
                '[' :: (ds.reverse ++
                  (']' :: untokAll ((lex fns rest).takeWhile nvTok))) := by
              simp
            rw [hsh, lex, if_pos rfl, lexMark_digits fns ds.reverse []
              ((']' :: untokAll ((lex fns rest).takeWhile nvTok))) (by simpa using hds)]
            simp only [List.reverse_reverse, List.append_nil]
            rw [lexMark, if_neg (show ¬ (']' : Char).isDigit = true by decide),
              if_pos rfl, if_neg he, if_neg hf, relex_lex fns rest]
      · by_cases hb : c = '['
        · rw [lexMark, if_neg hd, if_neg hc, if_pos hb]
          rw [takeWhile_append_of_all _ (plains_all_nv _),
            untokAll_append, untokAll_plains]
          have hM := relex_lexMark fns rest [] rfl
          rcases htw : (lexMark fns [] rest).takeWhile nvTok with _ | ⟨t₀, tws⟩
          · simp only [untokAll, List.append_nil]
            rw [lex, if_pos rfl]
            have h1 : lexMark fns [] (ds.reverse ++ []) =
                lexMark fns (ds.reverse.reverse ++ []) [] :=
              lexMark_digits fns ds.reverse [] [] (by simpa using hds)
            simp only [List.append_nil, List.reverse_reverse] at h1
            rw [h1, lexMark]
          · have hsh : ∃ q, untokAll (t₀ :: tws) = '[' :: q := by
              rcases lexMark_headTok fns rest [] with ⟨M', hM'⟩ | ⟨n, M', hM'⟩ |
                ⟨n, M', hM'⟩
              · rw [hM', List.takeWhile_cons,
                  if_pos (show nvTok (Tok.plain '[') = true from rfl)] at htw
                cases htw
                exact ⟨untokAll (List.takeWhile nvTok M'), rfl⟩
              · rw [hM', List.takeWhile_cons,
                  if_neg (show ¬ nvTok (Tok.valid n) = true by
                    simp [nvTok, isValidTok])] at htw
                cases htw
              · rw [hM', List.takeWhile_cons,
                  if_pos (show nvTok (Tok.invalid n) = true from rfl)] at htw
                cases htw
                refine ⟨n.data ++ (']' :: untokAll (List.takeWhile nvTok M')), ?_⟩
                simp [untokAll, untokOne]
            rcases hsh with ⟨q, hq⟩
            rw [hq]
            rw [htw, hq] at hM
            have hsh2 : ('[' :: ds.reverse) ++ ('[' :: q) =
                '[' :: (ds.reverse ++ ('[' :: q)) := rfl
            rw [hsh2, lex, if_pos rfl,
              lexMark_digits fns ds.reverse [] ('[' :: q) (by simpa using hds)]
            simp only [List.reverse_reverse, List.append_nil]
            rw [lexMark, if_neg (show ¬ ('[' : Char).isDigit = true by decide),
              if_neg (show ¬ ('[' : Char) = ']' by decide), if_pos rfl]
            rw [lex, if_pos rfl] at hM
            rw [hM]
        · rw [lexMark, if_neg hd, if_neg hc, if_neg hb]
          rw [takeWhile_append_of_all _ (plains_all_nv _)]
          rw [List.takeWhile_cons, if_pos (show nvTok (Tok.plain c) = true from rfl)]
          rw [untokAll_append, untokAll_plains, untokAll]
          simp only [untokOne, List.cons_append, List.nil_append]
          rw [lex, if_pos rfl, lexMark_digits fns ds.reverse []
            ((c :: untokAll ((lex fns rest).takeWhile nvTok))) (by simpa using hds)]
          simp only [List.reverse_reverse, List.append_nil]
          rw [lexMark, if_neg hd, if_neg hc, if_neg hb, relex_lex fns rest]

end

end PGE

namespace PGE

theorem dropWhile_of_all {α : Type} {p : α → Bool} :
    ∀ {l : List α}, l.all p = true → l.dropWhile p = [] := by
  intro l
  induction l with
  | nil => intro _; rfl
  | cons a t ih =>
    intro h
    simp only [List.all_cons, Bool.and_eq_true] at h
    rw [List.dropWhile_cons, if_pos h.1, ih h.2]

theorem all_takeWhile {α : Type} (p : α → Bool) (l : List α) :
    (l.takeWhile p).all p = true := by
  induction l with
  | nil => rfl
  | cons a t ih =>
    rw [List.takeWhile_cons]
    by_cases ha : p a
    · rw [if_pos ha]
      simp [ha, ih]
    · rw [if_neg ha]
      rfl

mutual

/-- Either the scan finds no citation with a definition, or the tokens
after the leading run start with the first valid citation followed by
the scan of a strictly shorter remainder. -/
theorem lexDecomp (fns : FnMap) (l : List Char) :
    (lex fns l).dropWhile nvTok = [] ∨
    ∃ n r, (lex fns l).dropWhile nvTok = Tok.valid n :: lex fns r ∧
      r.length < l.length := by
  cases l with
  | nil => exact Or.inl rfl
  | cons c rest =>
    by_cases hc : c = '['
    · rw [lex, if_pos hc]
      rcases lexMarkDecomp fns rest [] with h | ⟨n, r, h, hlen⟩
      · exact Or.inl h
      · exact Or.inr ⟨n, r, h, by simp at hlen ⊢; omega⟩
    · rw [lex, if_neg hc, List.dropWhile_cons,
        if_pos (show nvTok (Tok.plain c) = true from rfl)]
      rcases lexDecomp fns rest with h | ⟨n, r, h, hlen⟩
      · exact Or.inl h
      · exact Or.inr ⟨n, r, h, by simp; omega⟩

/-- The decomposition for the bracket state, with a length bound that
accounts for the bracket and the read digits. -/
theorem lexMarkDecomp (fns : FnMap) (l : List Char) (ds : List Char) :
    (lexMark fns ds l).dropWhile nvTok = [] ∨
    ∃ n r, (lexMark fns ds l).dropWhile nvTok = Tok.valid n :: lex fns r ∧
      r.length < l.length + ds.length + 1 := by
  cases l with
  | nil =>
    rw [lexMark]
    exact Or.inl (dropWhile_of_all (plains_all_nv _))
  | cons c rest =>
    by_cases hd : c.isDigit
    · rw [lexMark, if_pos hd]
      rcases lexMarkDecomp fns rest (c :: ds) with h | ⟨n, r, h, hlen⟩
      · exact Or.inl h
      · exact Or.inr ⟨n, r, h, by simp at hlen ⊢; omega⟩
    · by_cases hc : c = ']'
      · by_cases he : ds.isEmpty
        · rw [lexMark, if_neg hd, if_pos hc, if_pos he, List.dropWhile_cons,
            if_pos (show nvTok (Tok.plain '[') = true from rfl), List.dropWhile_cons,
            if_pos (show nvTok (Tok.plain ']') = true from rfl)]
          rcases lexDecomp fns rest with h | ⟨n, r, h, hlen⟩
          · exact Or.inl h
          · exact Or.inr ⟨n, r, h, by simp; omega⟩
        · rw [lexMark, if_neg hd, if_pos hc, if_neg he]
          by_cases hf : fnHas fns ⟨ds.reverse⟩
          · rw [if_pos hf, List.dropWhile_cons,
              if_neg (show ¬ nvTok (Tok.valid ⟨ds.reverse⟩) = true by
                simp [nvTok, isValidTok])]
            exact Or.inr ⟨⟨ds.reverse⟩, rest, rfl, by simp; omega⟩
          · rw [if_neg hf, List.dropWhile_cons,
              if_pos (show nvTok (Tok.invalid ⟨ds.reverse⟩) = true from rfl)]
            rcases lexDecomp fns rest with h | ⟨n, r, h, hlen⟩
            · exact Or.inl h
            · exact Or.inr ⟨n, r, h, by simp; omega⟩
      · by_cases hb : c = '['
        · rw [lexMark, if_neg hd, if_neg hc, if_pos hb,
            dropWhile_append_of_all _ (plains_all_nv _)]
          rcases lexMarkDecomp fns rest [] with h | ⟨n, r, h, hlen⟩
          · exact Or.inl h
          · exact Or.inr ⟨n, r, h, by simp at hlen ⊢; omega⟩
        · rw [lexMark, if_neg hd, if_neg hc, if_neg hb,
            dropWhile_append_of_all _ (plains_all_nv _), List.dropWhile_cons,
            if_pos (show nvTok (Tok.plain c) = true from rfl)]
          rcases lexDecomp fns rest with h | ⟨n, r, h, hlen⟩
          · exact Or.inl h
          · exact Or.inr ⟨n, r, h, by simp; omega⟩

end

theorem pushAll_append : ∀ (xs ys acc : List Char),
    pushAll (xs ++ ys) acc = pushAll ys (pushAll xs acc) := by
  intro xs
  induction xs with
  | nil => intro ys acc; rfl
  | cons x xs ih => intro ys acc; rw [List.cons_append, pushAll, pushAll, ih]

theorem pushAll_eq : ∀ (cs acc : List Char), pushAll cs acc = cs.reverse ++ acc := by
  intro cs
  induction cs with
  | nil => intro acc; rfl
  | cons c cs ih => intro acc; rw [pushAll, ih]; simp

theorem emitToks_all_nv : ∀ (run : List Tok) (acc : List Char),
    run.all nvTok = true →
      emitToks acc run = emitText (pushAll (untokAll run) acc) := by
  intro run
  induction run with
  | nil => intro acc _; rfl
  | cons t run ih =>
    intro acc h
    simp only [List.all_cons, Bool.and_eq_true] at h
    cases t with
    | plain c =>
      rw [emitToks, ih (c :: acc) h.2, untokAll]
      simp only [untokOne, List.cons_append, List.nil_append]
      rw [show ∀ q r, pushAll (c :: q) r = pushAll q (c :: r) from fun q r => rfl]
    | invalid n =>
      rw [emitToks, ih _ h.2, untokAll]
      simp only [untokOne]
      simp [pushAll_eq]
    | valid n =>
      simp [nvTok, isValidTok] at h

theorem emitToks_run_valid : ∀ (run : List Tok) (acc : List Char) (n : String)
    (ts' : List Tok), run.all nvTok = true →
      emitToks acc (run ++ Tok.valid n :: ts') =
        emitText (pushAll (untokAll run) acc) ++ mkBtn n :: emitToks [] ts' := by
  intro run
  induction run with
  | nil => intro acc n ts' _; rfl
  | cons t run ih =>
    intro acc n ts' h
    simp only [List.all_cons, Bool.and_eq_true] at h
    cases t with
    | plain c =>
      rw [List.cons_append, emitToks, ih (c :: acc) n ts' h.2, untokAll]
      simp only [untokOne, List.cons_append, List.nil_append]
      rw [show ∀ q r, pushAll (c :: q) r = pushAll q (c :: r) from fun q r => rfl]
    | invalid m =>
      rw [List.cons_append, emitToks, ih _ n ts' h.2, untokAll]
      simp only [untokOne]
      simp [pushAll_eq]
    | valid m =>
      simp [nvTok, isValidTok] at h

/-- Every text piece the replacement fragment contains rescans without
any valid citation. -/
theorem emit_pieces_stable (fns : FnMap) : ∀ (N : Nat) (l : List Char),
    l.length ≤ N → ∀ (acc : List Char),
      hasValid (lex fns (acc.reverse ++
        untokAll ((lex fns l).takeWhile nvTok))) = false →
      ∀ s, DNode.text s ∈ emitToks acc (lex fns l) →
        hasValid (lex fns s.data) = false := by
  intro N
  induction N with
  | zero =>
    intro l hl acc hacc s hs
    have hnil : l = [] := List.length_eq_zero.mp (Nat.le_zero.mp hl)
    subst hnil
    rw [show lex fns [] = [] from rfl, emitToks] at hs
    unfold emitText at hs
    by_cases he : acc.isEmpty
    · rw [if_pos he] at hs; simp at hs
    · rw [if_neg he] at hs
      have hseq : s = ⟨acc.reverse⟩ := by simpa using hs
      subst hseq
      have h0 : (lex fns ([] : List Char)) = [] := rfl
      rw [h0] at hacc
      simpa [untokAll] using hacc
  | succ N ih =>
    intro l hl acc hacc s hs
    rcases lexDecomp fns l with hdw | ⟨n, r, hdw, hlen⟩
    · have hts : (lex fns l).takeWhile nvTok = lex fns l := by
        have h0 := List.takeWhile_append_dropWhile (p := nvTok) (l := lex fns l)
        rw [hdw, List.append_nil] at h0
        exact h0
      have hall : (lex fns l).all nvTok = true := by
        rw [← hts]; exact all_takeWhile _ _
      rw [emitToks_all_nv _ acc hall] at hs
      unfold emitText at hs
      by_cases he : (pushAll (untokAll (lex fns l)) acc).isEmpty
      · rw [if_pos he] at hs; simp at hs
      · rw [if_neg he] at hs
        have hseq : s = ⟨(pushAll (untokAll (lex fns l)) acc).reverse⟩ := by
          simpa using hs
        subst hseq
        rw [hts] at hacc
        show hasValid (lex fns (pushAll (untokAll (lex fns l)) acc).reverse) = false
        rw [pushAll_reverse]
        exact hacc
    · have hsplit : lex fns l =
          (lex fns l).takeWhile nvTok ++ (Tok.valid n :: lex fns r) := by
        conv_lhs => rw [← List.takeWhile_append_dropWhile (p := nvTok) (l := lex fns l)]
        rw [hdw]
      rw [hsplit, emitToks_run_valid _ acc n _ (all_takeWhile _ _)] at hs
      rw [List.mem_append] at hs
      rcases hs with hs | hs
      · unfold emitText at hs
        by_cases he : (pushAll (untokAll ((lex fns l).takeWhile nvTok)) acc).isEmpty
        · rw [if_pos he] at hs; simp at hs
        · rw [if_neg he] at hs
          have hseq : s =
              ⟨(pushAll (untokAll ((lex fns l).takeWhile nvTok)) acc).reverse⟩ := by
            simpa using hs
          subst hseq
          show hasValid (lex fns
            (pushAll (untokAll ((lex fns l).takeWhile nvTok)) acc).reverse) = false
          rw [pushAll_reverse]
          exact hacc
      · rw [List.mem_cons] at hs
        rcases hs with hs | hs
        · simp [mkBtn] at hs
        · refine ih r ?_ [] ?_ s hs
          · omega
          · rw [List.reverse_nil, List.nil_append, relex_lex fns r]
            exact hasValid_false_of_all_nv (all_takeWhile _ _)

/-- Every text piece of a processed text node rescans without any
valid citation. -/
theorem processText_pieces_stable (fns : FnMap) (s : String) :
    ∀ piece, DNode.text piece ∈ processText fns s →
      hasValid (lex fns piece.data) = false := by
  intro piece hp
  unfold processText at hp
  by_cases h : hasValid (lex fns s.data)
  · rw [if_pos h] at hp
    refine emit_pieces_stable fns s.data.length s.data le_rfl [] ?_ piece hp
    rw [List.reverse_nil, List.nil_append, relex_lex fns s.data]
    exact hasValid_false_of_all_nv (all_takeWhile _ _)
  · rw [if_neg h] at hp
    have hps : piece = s := by simpa using hp
    subst hps
    revert h
    cases hasValid (lex fns piece.data) <;> simp

end PGE

namespace PGE

mutual

/-- Inside an excluded region the plain-text pass changes nothing. -/
theorem wrapPlainN_excluded (fns : FnMap) (n : DNode) :
    wrapPlainN fns true n = [n] := by
  cases n with
  | text s => rfl
  | elem t a cs =>
    rw [wrapPlainN, Bool.true_or, wrapPlainL_excluded fns cs]

/-- Inside an excluded region the plain-text pass changes no node. -/
theorem wrapPlainL_excluded (fns : FnMap) (l : List DNode) :
    wrapPlainL fns true l = l := by
  cases l with
  | nil => rfl
  | cons n rest =>
    rw [wrapPlainL, wrapPlainN_excluded fns n, wrapPlainL_excluded fns rest]
    rfl

end

theorem wrapPlainL_append (fns : FnMap) (ex : Bool) :
    ∀ (xs ys : List DNode),
      wrapPlainL fns ex (xs ++ ys) = wrapPlainL fns ex xs ++ wrapPlainL fns ex ys := by
  intro xs
  induction xs with
  | nil => intro ys; rfl
  | cons n rest ih =>
    intro ys
    rw [List.cons_append, wrapPlainL, ih ys, wrapPlainL, List.append_assoc]

theorem emitText_shape : ∀ (acc : List Char) (x : DNode),
    x ∈ emitText acc → ∃ s, x = DNode.text s := by
  intro acc x hx
  unfold emitText at hx
  by_cases he : acc.isEmpty
  · rw [if_pos he] at hx; simp at hx
  · rw [if_neg he] at hx
    exact ⟨_, by simpa using hx⟩

theorem emitToks_shape : ∀ (ts : List Tok) (acc : List Char) (x : DNode),
    x ∈ emitToks acc ts → (∃ s, x = DNode.text s) ∨ (∃ m, x = mkBtn m) := by
  intro ts
  induction ts with
  | nil => intro acc x hx; exact Or.inl (emitText_shape acc x hx)
  | cons t ts ih =>
    intro acc x hx
    cases t with
    | plain c => rw [emitToks] at hx; exact ih _ x hx
    | invalid n => rw [emitToks] at hx; exact ih _ x hx
    | valid n =>
      rw [emitToks, List.mem_append, List.mem_cons] at hx
      rcases hx with hx | hx | hx
      · exact Or.inl (emitText_shape _ x hx)
      · exact Or.inr ⟨n, hx⟩
      · exact ih _ x hx

theorem processText_shape (fns : FnMap) (s : String) :
    ∀ x ∈ processText fns s, (∃ u, x = DNode.text u) ∨ (∃ m, x = mkBtn m) := by
  intro x hx
  unfold processText at hx
  by_cases h : hasValid (lex fns s.data)
  · rw [if_pos h] at hx
    exact emitToks_shape _ [] x hx
  · rw [if_neg h] at hx
    exact Or.inl ⟨s, by simpa using hx⟩

theorem processText_of_stable {fns : FnMap} {s : String}
    (h : hasValid (lex fns s.data) = false) : processText fns s = [.text s] := by
  unfold processText
  simp only []
  rw [h]
  rfl

theorem wrapPlain_mkBtn (fns : FnMap) (ex : Bool) (m : String) :
    wrapPlainN fns ex (mkBtn m) = [mkBtn m] := by
  have hex : exclElem "button" [("data-fn", m), ("aria-label", "Footnote " ++ m)]
      = true := rfl
  rw [mkBtn, wrapPlainN, hex, Bool.or_true, wrapPlainL_excluded]

theorem wrapPlain_out_idem (fns : FnMap) (ex : Bool) :
    ∀ (out : List DNode),
      (∀ s, DNode.text s ∈ out → hasValid (lex fns s.data) = false) →
      (∀ x ∈ out, (∃ u, x = DNode.text u) ∨ (∃ m, x = mkBtn m)) →
      wrapPlainL fns ex out = out := by
  intro out
  induction out with
  | nil => intro _ _; rfl
  | cons x rest ih =>
    intro hstable hshape
    rw [wrapPlainL]
    have hx := hshape x (List.mem_cons_self x rest)
    have hrest : wrapPlainL fns ex rest = rest :=
      ih (fun s hs => hstable s (List.mem_cons_of_mem x hs))
        (fun y hy => hshape y (List.mem_cons_of_mem x hy))
    rcases hx with ⟨u, rfl⟩ | ⟨m, rfl⟩
    · by_cases hex : ex = true
      · subst hex
        rw [wrapPlainN_excluded, hrest]
        rfl
      · have hexf : ex = false := by revert hex; cases ex <;> simp
        subst hexf
        rw [wrapPlainN, if_neg (by simp),
          processText_of_stable (hstable u (List.mem_cons_self _ _)), hrest]
        rfl
    · rw [wrapPlain_mkBtn, hrest]
      rfl

mutual

/-- The plain-text pass is idempotent on a node's output. -/
theorem wrapPlain_idemN (fns : FnMap) (ex : Bool) (n : DNode) :
    wrapPlainL fns ex (wrapPlainN fns ex n) = wrapPlainN fns ex n := by
  cases n with
  | text s =>
    by_cases hex : ex = true
    · subst hex
      rw [wrapPlainN_excluded]
      rw [wrapPlainL_excluded]
    · have hexf : ex = false := by revert hex; cases ex <;> simp
      subst hexf
      rw [wrapPlainN, if_neg (by simp)]
      exact wrapPlain_out_idem fns false (processText fns s)
        (processText_pieces_stable fns s) (processText_shape fns s)
  | elem t a cs =>
    rw [wrapPlainN, wrapPlainL, wrapPlainN,
      wrapPlain_idemL fns (ex || exclElem t a) cs]
    rfl

/-- The plain-text discovery pass is idempotent: running it a second
time on the already-processed tree produces no change. -/
theorem wrapPlain_idemL (fns : FnMap) (ex : Bool) (l : List DNode) :
    wrapPlainL fns ex (wrapPlainL fns ex l) = wrapPlainL fns ex l := by
  cases l with
  | nil => rfl
  | cons n rest =>
    rw [wrapPlainL, wrapPlainL_append, wrapPlain_idemN fns ex n,
      wrapPlain_idemL fns ex rest]

end

end PGE

namespace PGE

mutual

/-- Only numbers present in the definition map are ever scanned as
valid citations. -/
theorem valid_mem_lex (fns : FnMap) (l : List Char) (n : String)
    (h : Tok.valid n ∈ lex fns l) : fnHas fns n = true := by
  cases l with
  | nil => simp [lex] at h
  | cons c rest =>
    by_cases hc : c = '['
    · rw [lex, if_pos hc] at h
      exact valid_mem_lexMark fns rest [] n h
    · rw [lex, if_neg hc, List.mem_cons] at h
      rcases h with h | h
      · cases h
      · exact valid_mem_lex fns rest n h

/-- Only numbers present in the definition map are ever scanned as
valid citations (bracket state). -/
theorem valid_mem_lexMark (fns : FnMap) (l : List Char) (ds : List Char)
    (n : String) (h : Tok.valid n ∈ lexMark fns ds l) : fnHas fns n = true := by
  cases l with
  | nil =>
    rw [lexMark] at h
    exfalso
    rcases List.mem_map.mp h with ⟨c, _, hc⟩
    cases hc
  | cons c rest =>
    by_cases hd : c.isDigit
    · rw [lexMark, if_pos hd] at h
      exact valid_mem_lexMark fns rest (c :: ds) n h
    · by_cases hc : c = ']'
      · by_cases he : ds.isEmpty
        · rw [lexMark, if_neg hd, if_pos hc, if_pos he, List.mem_cons,
            List.mem_cons] at h
          rcases h with h | h | h
          · cases h
          · cases h
          · exact valid_mem_lex fns rest n h
        · rw [lexMark, if_neg hd, if_pos hc, if_neg he] at h
          by_cases hf : fnHas fns ⟨ds.reverse⟩
          · rw [if_pos hf, List.mem_cons] at h
            rcases h with h | h
            · cases h; exact hf
            · exact valid_mem_lex fns rest n h
          · rw [if_neg hf, List.mem_cons] at h
            rcases h with h | h
            · cases h
            · exact valid_mem_lex fns rest n h
      · by_cases hb : c = '['
        · rw [lexMark, if_neg hd, if_neg hc, if_pos hb, List.mem_append] at h
          rcases h with h | h
          · exfalso
            rcases List.mem_map.mp h with ⟨x, _, hx⟩
            cases hx
          · exact valid_mem_lexMark fns rest [] n h
        · rw [lexMark, if_neg hd, if_neg hc, if_neg hb, List.mem_append] at h
          rcases h with h | h
          · exfalso
            rcases List.mem_map.mp h with ⟨x, _, hx⟩
            cases hx
          · rw [List.mem_cons] at h
            rcases h with h | h
            · cases h
            · exact valid_mem_lex fns rest n h

end

theorem countValid_zero_of_undefined {fns : FnMap} {tgt : String}
    (h : fnHas fns tgt = false) (s : String) : countValid fns tgt s = 0 := by
  unfold countValid
  rw [List.count_eq_zero]
  intro hmem
  have := valid_mem_lex fns s.data tgt hmem
  rw [h] at this
  exact Bool.false_ne_true this

mutual

/-- An undefined citation number is never counted on a node. -/
theorem plainCount_zeroN (fns : FnMap) (tgt : String)
    (h : fnHas fns tgt = false) (ex : Bool) (n : DNode) :
    plainCountN fns ex tgt n = 0 := by
  cases n with
  | text s =>
    by_cases hex : ex
    · simp [plainCountN, hex]
    · simp [plainCountN, hex, countValid_zero_of_undefined h]
  | elem t a cs =>
    rw [plainCountN]
    exact plainCount_zeroL fns tgt h (ex || exclElem t a) cs

/-- An undefined citation number is never counted on a node list. -/
theorem plainCount_zeroL (fns : FnMap) (tgt : String)
    (h : fnHas fns tgt = false) (ex : Bool) (l : List DNode) :
    plainCountL fns ex tgt l = 0 := by
  cases l with
  | nil => rfl
  | cons n rest =>
    rw [plainCountL, plainCount_zeroN fns tgt h ex n,
      plainCount_zeroL fns tgt h ex rest]

end

/-- C5: a plain-text citation whose number has no entry in the
Definition Map is never converted to a control (the pass creates no
control carrying an undefined number), the surrounding text content is
preserved verbatim, and running the plain-text discovery pass a second
time on the already-processed tree produces no change. -/
theorem C5_undefined_and_idempotent :
    (∀ (fns : FnMap) (n : String), fnHas fns n = false →
      ∀ (ex : Bool) (l : List DNode),
        controlCountL n (wrapPlainL fns ex l) = controlCountL n l) ∧
    (∀ (fns : FnMap) (ex : Bool) (l : List DNode),
      textContentL (wrapPlainL fns ex l) = textContentL l) ∧
    (∀ (fns : FnMap) (ex : Bool) (l : List DNode),
      wrapPlainL fns ex (wrapPlainL fns ex l) = wrapPlainL fns ex l) := by
  refine ⟨fun fns n h ex l => ?_, fun fns ex l => wrapPlain_textL fns ex l,
    fun fns ex l => wrapPlain_idemL fns ex l⟩
  rw [wrapPlain_countL, plainCount_zeroL fns n h ex l]
  omega

/-- Witness for C5 at a concrete tree containing an undefined citation
number. -/
theorem C5_undefined_and_idempotent_witness :
    fnHas [("1", "note one")] "2" = false ∧
    controlCountL "2"
        (wrapPlainL [("1", "note one")] false
          [.elem "p" [] [.text "see [1] and [2] here"]]) =
      controlCountL "2" [.elem "p" [] [.text "see [1] and [2] here"]] :=
  ⟨by decide,
   C5_undefined_and_idempotent.1 [("1", "note one")] "2" (by decide) false
     [.elem "p" [] [.text "see [1] and [2] here"]]⟩

end PGE

namespace PGE

mutual

/-- The linked pass on a non-replaced element creates exactly the
counted linked citations of its children as controls, given the element
carries no pre-existing control. -/
theorem wl_countN (fns : FnMap) (tgt : String) (t : String)
    (a : List (String × String)) (cs : List DNode) (ins : Bool)
    (h : noControlsN (.elem t a cs) = true) :
    controlCountN tgt (wrapLinkedN fns ins (.elem t a cs)) =
      linkedCountL fns (ins || hasAttr a "data-fn") tgt cs := by
  simp only [noControlsN, Bool.and_eq_true] at h
  have hga : getAttr a "data-fn" = none := by
    refine getAttr_none ?_
    revert h
    cases hasAttr a "data-fn" <;> simp
  rw [wrapLinkedN, controlCountN, hga,
    wl_countL fns tgt cs (ins || hasAttr a "data-fn") false h.2]
  simp

/-- The linked pass on a sibling list replaces exactly the counted
linked citations by controls, given the list carries no pre-existing
control. -/
theorem wl_countL (fns : FnMap) (tgt : String) (l : List DNode)
    (ins pq : Bool) (h : noControlsL l = true) :
    controlCountL tgt (wrapLinkedL fns ins pq l) = linkedCountL fns ins tgt l := by
  cases l with
  | nil => rfl
  | cons n rest =>
    simp only [noControlsL, Bool.and_eq_true] at h
    cases n with
    | text s =>
      rw [wrapLinkedL, controlCountL, linkedCountL, linkedCountN, controlCountN,
        wl_countL fns tgt rest ins false h.2]
    | elem t a cs =>
      by_cases hq : qualifies fns ins (.elem t a cs)
      · rw [wrapLinkedL, if_pos hq, controlCountL, linkedCountL, linkedCountN,
          if_pos hq, controlCount_mkBtn, wl_countL fns tgt rest ins true h.2]
        by_cases he : linkNum (.elem t a cs) = tgt
        · rw [if_pos he, if_pos (by simp [he])]
        · rw [if_neg he, if_neg (by simp [he])]
      · rw [wrapLinkedL, if_neg hq, controlCountL, linkedCountL, linkedCountN,
          if_neg hq, wl_countN fns tgt t a cs ins h.1,
          wl_countL fns tgt rest ins false h.2]

end

mutual

/-- The linked pass preserves correct labelling on a non-replaced
element. -/
theorem wl_labelN (fns : FnMap) (ins : Bool) (t : String)
    (a : List (String × String)) (cs : List DNode)
    (h : labeledOKN (.elem t a cs) = true) :
    labeledOKN (wrapLinkedN fns ins (.elem t a cs)) = true := by
  simp only [labeledOKN, Bool.and_eq_true] at h
  rw [wrapLinkedN, labeledOKN]
  simp only [Bool.and_eq_true]
  exact ⟨h.1, wl_labelL fns (ins || hasAttr a "data-fn") false cs h.2⟩

/-- The linked pass preserves correct labelling on a sibling list: the
controls it creates carry the accessible label for their number. -/
theorem wl_labelL (fns : FnMap) (ins pq : Bool) (l : List DNode)
    (h : labeledOKL l = true) : labeledOKL (wrapLinkedL fns ins pq l) = true := by
  cases l with
  | nil => rfl
  | cons n rest =>
    simp only [labeledOKL, Bool.and_eq_true] at h
    cases n with
    | text s =>
      rw [wrapLinkedL, labeledOKL]
      simp only [Bool.and_eq_true]
      exact ⟨rfl, wl_labelL fns ins false rest h.2⟩
    | elem t a cs =>
      by_cases hq : qualifies fns ins (.elem t a cs)
      · rw [wrapLinkedL, if_pos hq, labeledOKL]
        simp only [Bool.and_eq_true]
        exact ⟨labeledOK_mkBtn _, wl_labelL fns ins true rest h.2⟩
      · rw [wrapLinkedL, if_neg hq, labeledOKL]
        simp only [Bool.and_eq_true]
        exact ⟨wl_labelN fns ins t a cs h.1, wl_labelL fns ins false rest h.2⟩

end

/-- C1: on a prose tree without pre-existing controls, running the
linked pass and then the plain-text pass produces, for every citation
number, exactly one interactive control per citation of either style —
the linked citations counted on the input, the plain-text citations
counted after the linked pass (whose created controls are excluded from
the plain-text scan by construction) — and every control carries the
accessible label encoding its number. -/
theorem C1_citations_become_controls :
    ∀ (fns : FnMap) (l : List DNode), noControlsL l = true → ∀ tgt : String,
      controlCountL tgt (wrapPlainL fns false (wrapLinkedL fns false false l)) =
        linkedCountL fns false tgt l +
          plainCountL fns false tgt (wrapLinkedL fns false false l) ∧
      labeledOKL (wrapPlainL fns false (wrapLinkedL fns false false l)) = true := by
  intro fns l h tgt
  constructor
  · rw [wrapPlain_countL, wl_countL fns tgt l false false h]
  · exact wrapPlain_labelL fns false _
      (wl_labelL fns false false l (noControls_labelL l h))

/-- Witness for C1 at a concrete prose tree containing one linked-style
citation (with surrounding bracket text), one defined plain-text
citation and one undefined plain-text citation. -/
theorem C1_citations_become_controls_witness :
    noControlsL
        [.elem "p" [] [.text "intro [", .elem "a" [("href", "#f2")] [.text "2"],
          .text "] then [1] and [3] end"]] = true ∧
    (controlCountL "2"
        (wrapPlainL [("1", "one"), ("2", "two")] false
          (wrapLinkedL [("1", "one"), ("2", "two")] false false
            [.elem "p" [] [.text "intro [", .elem "a" [("href", "#f2")] [.text "2"],
              .text "] then [1] and [3] end"]])) =
      linkedCountL [("1", "one"), ("2", "two")] false "2"
          [.elem "p" [] [.text "intro [", .elem "a" [("href", "#f2")] [.text "2"],
            .text "] then [1] and [3] end"]] +
        plainCountL [("1", "one"), ("2", "two")] false "2"
          (wrapLinkedL [("1", "one"), ("2", "two")] false false
            [.elem "p" [] [.text "intro [", .elem "a" [("href", "#f2")] [.text "2"],
              .text "] then [1] and [3] end"]])) :=
  ⟨by decide,
   (C1_citations_become_controls [("1", "one"), ("2", "two")]
      [.elem "p" [] [.text "intro [", .elem "a" [("href", "#f2")] [.text "2"],
        .text "] then [1] and [3] end"]] (by decide) "2").1⟩

end PGE
